import Mathlib

/-!
Verification development for the Hyper-v25 AGI safety pipeline.

The Python sources are shallowly embedded: strings are `List Char` / `String`,
integers are `Nat`, Python floats are modelled as real numbers (`ℝ`), and the
mutable `SafetySystem` instance state is threaded explicitly as a `SafetyState`
value.  Regular-expression matching is embedded as executable character-level
scanners implementing the semantics of the concrete patterns that appear in the
sources (all of them are word-boundary-delimited alternations of literal words,
fixed digit shapes, or the fixed e-mail pattern).  `time.time()` timestamps are
passed in as an explicit `now : ℝ` parameter; they are never inspected by any
property below.
-/

namespace StrUtil

/-- ASCII lower-casing of a character, as Python `str.lower` acts on the ASCII
fragment (all inputs considered in this development are ASCII). -/
def lowerChar (c : Char) : Char :=
  if 'A' ≤ c ∧ c ≤ 'Z' then Char.ofNat (c.toNat + 32) else c

/-- Lower-case every character of a character list. -/
def lowerList (l : List Char) : List Char := l.map lowerChar

/-- Python regex `\w` on the ASCII fragment: letters, digits and underscore. -/
def isWordChar (c : Char) : Bool := c.isAlphanum || c = '_'

/-- Python regex `\s` on the ASCII fragment. -/
def isSpaceChar (c : Char) : Bool :=
  c = ' ' || c = '\t' || c = '\n' || c = '\r' || c = (Char.ofNat 11) || c = (Char.ofNat 12)

/-- Word-character test on an optional character, `false` at a string edge. -/
def wordOpt : Option Char → Bool
  | none => false
  | some c => isWordChar c

/-- Python regex `\b` between an optional left character and an optional right
character: exactly one of the two sides is a word character. -/
def boundary (l r : Option Char) : Bool := wordOpt l != wordOpt r

/-- Does `pat` occur as a prefix of `s`? (Plain list prefix.) -/
def isPrefixList : List Char → List Char → Bool
  | [], _ => true
  | _ :: _, [] => false
  | p :: ps, c :: cs => p = c && isPrefixList ps cs

/-- Does `pat` occur as a substring of `s`?  Embeds Python's `pat in s`. -/
def containsSub (s pat : List Char) : Bool :=
  match s with
  | [] => isPrefixList pat []
  | _ :: rest => isPrefixList pat s || containsSub rest pat

/-- Substring test on `String`s (Python `pat in s`). -/
def strContains (s pat : String) : Bool := containsSub s.data pat.data

/-- Occurrence of the literal word `pat` at the head of `s`, delimited by `\b`
on both sides (`prev` is the character just before the head of `s`).
Returns `true` when `pat` is a prefix of `s` with a word boundary before its
first and after its last character. -/
def wordAtHead (prev : Option Char) (pat s : List Char) : Bool :=
  match pat with
  | [] => false
  | p :: _ =>
      isPrefixList pat s && boundary prev (some p) &&
        boundary ((pat.getLast?).getD p) ((s.drop pat.length).head?)

private def boundaryRight (last : Char) (rest : List Char) : Bool :=
  boundary (some last) rest.head?

/-- Search `s` for an occurrence of the `\b`-delimited literal `pat`
(`re.search` of `\bpat\b`), tracking the previous character for the left
boundary. -/
def searchWordAux (prev : Option Char) (pat s : List Char) : Bool :=
  match s with
  | [] => false
  | c :: rest => wordAtHead prev pat s || searchWordAux (some c) pat rest

/-- Embeds `re.search(r"\b(...)\b", text)` for one literal alternative. -/
def searchWord (pat : String) (text : List Char) : Bool :=
  searchWordAux none pat.data text

/-- Embeds `re.search(r"\b(w1|w2|...)\b", text)`: some alternative occurs with
word boundaries. -/
def searchWordAny (pats : List String) (text : List Char) : Bool :=
  pats.any (fun p => searchWord p text)

end StrUtil

namespace SafetySystem

open StrUtil

/-- Severity levels of `safety_system.SafetyLevel`. -/
inductive SafetyLevel
  | CRITICAL
  | HIGH
  | MEDIUM
  | LOW
  | SAFE
  deriving DecidableEq, Repr

/-- The numeric `value` of each `SafetyLevel` enum member. -/
def SafetyLevel.value : SafetyLevel → Nat
  | .CRITICAL => 4
  | .HIGH => 3
  | .MEDIUM => 2
  | .LOW => 1
  | .SAFE => 0

/-- The `name` of each `SafetyLevel` enum member. -/
def SafetyLevel.lname : SafetyLevel → String
  | .CRITICAL => "CRITICAL"
  | .HIGH => "HIGH"
  | .MEDIUM => "MEDIUM"
  | .LOW => "LOW"
  | .SAFE => "SAFE"

/-- The dataclass `safety_system.SafetyViolation`.  `timestamp` is the `now`
value passed to the check that created the violation. -/
structure SafetyViolation where
  vtype : String
  level : SafetyLevel
  description : String
  penalty : Nat
  timestamp : ℝ

/-- One entry of `SafetySystem.self.rules`: the regex is a `\b`-delimited
alternation of the literal `words`. -/
structure Rule where
  name : String
  words : List String
  level : SafetyLevel
  penalty : Nat
  description : String

/-- The founder's safety rules, verbatim from `SafetySystem.__init__`. -/
def rules : List Rule :=
  [ { name := "no_harm",
      words := ["kill", "harm", "hurt", "injure", "attack", "destroy"],
      level := .CRITICAL, penalty := 1000,
      description := "Prevention of physical harm" },
    { name := "no_exploit",
      words := ["hack", "exploit", "breach", "bypass", "unauthorized"],
      level := .HIGH, penalty := 500,
      description := "System security protection" },
    { name := "no_privacy_violation",
      words := ["spy", "snoop", "eavesdrop", "private", "personal data"],
      level := .HIGH, penalty := 400,
      description := "Data privacy protection" },
    { name := "no_dangerous_instructions",
      words := ["bomb", "weapon", "poison", "dangerous chemical"],
      level := .CRITICAL, penalty := 1500,
      description := "Prevention of dangerous creations" },
    { name := "no_system_damage",
      words := ["rm -rf", "format", "delete all", "erase", "corrupt"],
      level := .HIGH, penalty := 600,
      description := "System integrity protection" },
    { name := "no_unethical",
      words := ["cheat", "steal", "lie", "deceive", "manipulate"],
      level := .MEDIUM, penalty := 300,
      description := "Ethical behavior enforcement" },
    { name := "reality_check",
      words := ["time travel", "teleport", "magic", "supernatural", "infinite energy"],
      level := .LOW, penalty := 100,
      description := "Reality consistency check" } ]

/-- Rule-table matching pass of `check_input`: each rule whose pattern matches
the lower-cased input emits one violation (in table order). -/
def findRuleViolations (now : ℝ) (text : String) : List SafetyViolation :=
  rules.filterMap (fun r =>
    if searchWordAny r.words (lowerList text.data) then
      some ⟨r.name, r.level, r.description, r.penalty, now⟩
    else none)

/-- Skip regex `\s*`: drop leading whitespace. -/
def dropWs (s : List Char) : List Char := s.dropWhile (fun c => StrUtil.isSpaceChar c)

/-- Is the head of `s` a `\w` character (regex `\w+` can start here)? -/
def headIsWord (s : List Char) : Bool :=
  match s.head? with
  | some c => StrUtil.isWordChar c
  | none => false

/-- Regex `.*close` at the head of `s`: some occurrence of `close` is reachable
without crossing a newline (regex `.` does not match `\n`). -/
def closesBefore (close : Char) : List Char → Bool
  | [] => false
  | c :: rest => if c = close then true else if c = '\n' then false else closesBefore close rest

/-- Regex `pfx\s*\w+` anchored at the head of `s`. -/
def matchPrefixWsWord (pfx : List Char) (s : List Char) : Bool :=
  StrUtil.isPrefixList pfx s && headIsWord (dropWs (s.drop pfx.length))

/-- Regex `` `.*` `` anchored at the head of `s`. -/
def matchBacktickPair (s : List Char) : Bool :=
  match s with
  | '`' :: rest => closesBefore '`' rest
  | _ => false

/-- Regex `\$\s*\(.*\)` anchored at the head of `s`. -/
def matchDollarParen (s : List Char) : Bool :=
  match s with
  | '$' :: rest =>
      match dropWs rest with
      | '(' :: t => closesBefore ')' t
      | _ => false
  | _ => false

/-- Regex `name\s*\(.*\)` anchored at the head of `s` (for `eval`, `exec`,
`system`). -/
def matchCallParen (name : List Char) (s : List Char) : Bool :=
  StrUtil.isPrefixList name s &&
    match dropWs (s.drop name.length) with
    | '(' :: t => closesBefore ')' t
    | _ => false

/-- Unanchored search: `p` holds at some suffix of `s` (regex `re.search`). -/
def existsAt (p : List Char → Bool) : List Char → Bool
  | [] => p []
  | c :: rest => p (c :: rest) || existsAt p rest

/-- The `_check_command_injection` pattern table: anchored matcher,
description, penalty.  Matching is case-insensitive (`re.IGNORECASE`), which we
embed by lower-casing the text before scanning. -/
def commandInjectionPatterns : List ((List Char → Bool) × String × Nat) :=
  [ (matchPrefixWsWord [';'], "Command chaining", 200),
    (matchPrefixWsWord ['|'], "Pipe command", 200),
    (matchPrefixWsWord ['&', '&'], "AND command", 200),
    (matchPrefixWsWord ['|', '|'], "OR command", 200),
    (matchBacktickPair, "Command substitution", 300),
    (matchDollarParen, "Command execution", 300),
    (matchCallParen "eval".data, "Eval function", 400),
    (matchCallParen "exec".data, "Exec function", 400),
    (matchCallParen "system".data, "System call", 500) ]

/-- Embeds `SafetySystem._check_command_injection`. -/
def checkCommandInjection (now : ℝ) (text : String) : List SafetyViolation :=
  commandInjectionPatterns.filterMap (fun e =>
    if existsAt e.1 (StrUtil.lowerList text.data) then
      some ⟨"command_injection", .HIGH, "Command injection attempt: " ++ e.2.1, e.2.2, now⟩
    else none)

/-- The `_check_system_calls` table: substring, description, penalty. -/
def dangerousCalls : List (String × String × Nat) :=
  [ ("sudo", "Privilege escalation", 600),
    ("chmod 777", "Permission change", 400),
    ("chown root", "Ownership change", 400),
    ("dd if=", "Disk operations", 500),
    ("mkfs", "Filesystem creation", 500),
    ("fdisk", "Partition operations", 500),
    ("shutdown", "System shutdown", 300),
    ("reboot", "System reboot", 300),
    ("kill -9", "Process termination", 300),
    ("rm -rf /", "Root deletion", 1000) ]

/-- Embeds `SafetySystem._check_system_calls` (plain substring match against
the lower-cased text; CRITICAL when the penalty is at least 500). -/
def checkSystemCalls (now : ℝ) (text : String) : List SafetyViolation :=
  dangerousCalls.filterMap (fun e =>
    if StrUtil.containsSub (StrUtil.lowerList text.data) e.1.data then
      some ⟨"system_call", if 500 ≤ e.2.2 then .CRITICAL else .HIGH,
            "Dangerous system call: " ++ e.2.1, e.2.2, now⟩
    else none)

/-- All violations produced by one `check_input` call, in source order: rule
matches, then command-injection matches, then system-call matches. -/
def findViolations (now : ℝ) (text : String) : List SafetyViolation :=
  findRuleViolations now text ++ checkCommandInjection now text ++ checkSystemCalls now text

/-- The mutable state of one `SafetySystem` instance (`self.violations`,
`self.total_penalty`, `self.safety_score`, `self.checks_performed`). -/
structure SafetyState where
  violations : List SafetyViolation
  total_penalty : Nat
  safety_score : ℝ
  checks_performed : Nat

/-- State set up by `SafetySystem.__init__`. -/
noncomputable def initState : SafetyState :=
  { violations := [], total_penalty := 0, safety_score := 100, checks_performed := 0 }

/-- Embeds `SafetySystem._update_safety_score`: exponential decay by the
penalty of the current call, clamped to at least 0. -/
noncomputable def updateSafetyScore (score : ℝ) (penalty : Nat) : ℝ :=
  max (score * Real.exp (-(penalty : ℝ) / 1000)) 0

/-- The `self.thresholds` table. -/
structure Thresholds where
  critical_violations : Nat
  total_penalty : Nat
  safety_score : ℝ

noncomputable def thresholds : Thresholds :=
  { critical_violations := 1, total_penalty := 2000, safety_score := 20 }

/-- One action verdict (`type`, `message`, `restrictions`). -/
structure SafetyAction where
  atype : String
  message : String
  restrictions : List String
  deriving DecidableEq

/-- Embeds `SafetySystem._determine_action`.  The final branch's
`list(set(...))` has unspecified order in Python; it is embedded as `eraseDups`
(no claim depends on that branch's order). -/
noncomputable def determineAction (violations : List SafetyViolation) (total_penalty : Nat)
    (safety_score : ℝ) : SafetyAction :=
  if violations.isEmpty then
    { atype := "allow", message := "Input safe", restrictions := [] }
  else
    let critical_count := violations.countP (fun v => v.level = .CRITICAL)
    if thresholds.critical_violations ≤ critical_count then
      { atype := "shutdown", message := "Critical safety violation detected",
        restrictions := ["system_shutdown", "memory_lock", "network_disconnect"] }
    else if thresholds.total_penalty ≤ total_penalty then
      { atype := "block", message := "Cumulative penalty threshold exceeded",
        restrictions := ["input_blocked", "output_restricted", "learning_paused"] }
    else if safety_score ≤ thresholds.safety_score then
      { atype := "restrict", message := "Safety score too low",
        restrictions := ["limited_functionality", "supervision_required"] }
    else
      let restrictions := violations.foldl (fun acc v =>
        match v.level with
        | .HIGH => acc ++ ["input_sanitized", "output_filtered", "log_intensive"]
        | .MEDIUM => acc ++ ["input_verified", "output_monitored"]
        | .LOW => acc ++ ["monitor_only"]
        | _ => acc) []
      { atype := "restrict", message := toString violations.length ++ " violations detected",
        restrictions := restrictions.eraseDups }

/-- The dictionary produced by `SafetySystem._violation_to_dict` (dict key
`type` is embedded as field `vtype`). -/
structure RuleDict where
  vtype : String
  level : Nat
  level_name : String
  description : String
  penalty : Nat
  timestamp : ℝ

def violationToDict (v : SafetyViolation) : RuleDict :=
  { vtype := v.vtype, level := v.level.value, level_name := v.level.lname,
    description := v.description, penalty := v.penalty, timestamp := v.timestamp }

/-- The smaller dictionary built in `_check_output_specific`. -/
structure MisleadingDict where
  vtype : String
  description : String
  penalty : Nat
  deriving DecidableEq

/-- An entry of a check result's `violations` list: `check_input` produces
full rule dictionaries, `check_output` appends misleading-output entries. -/
inductive VDict
  | rule (d : RuleDict)
  | misleading (d : MisleadingDict)

/-- The dictionary returned by `check_input` / `check_output`. -/
structure CheckResult where
  safe : Bool
  violations : List VDict
  total_penalty : Nat
  action : SafetyAction
  checks_performed : Nat
  safety_score : ℝ

/-- Embeds `SafetySystem.check_input`, returning the updated engine state and
the result dictionary. -/
noncomputable def check_input (s : SafetyState) (now : ℝ) (text : String) :
    SafetyState × CheckResult :=
  let vfound := findViolations now text
  let tp := (vfound.map (fun v => v.penalty)).sum
  let s1 := { s with checks_performed := s.checks_performed + 1 }
  let s2 := if vfound.isEmpty then s1 else
    { s1 with safety_score := updateSafetyScore s1.safety_score tp,
              violations := s1.violations ++ vfound,
              total_penalty := s1.total_penalty + tp }
  let action := determineAction vfound tp s2.safety_score
  (s2, { safe := vfound.isEmpty,
         violations := vfound.map (fun v => .rule (violationToDict v)),
         total_penalty := tp, action := action,
         checks_performed := s2.checks_performed,
         safety_score := s2.safety_score })

/-- The `misleading_patterns` table of `_check_output_specific`. -/
def misleadingPatterns : List (List String × String × Nat) :=
  [ (["100% guaranteed", "no risk", "completely safe"], "Overconfidence", 100),
    (["trust me", "believe me", "I promise"], "Unverifiable claims", 50),
    (["secret", "hidden", "confidential", "not public"], "Secretive behavior", 150) ]

/-- Embeds `SafetySystem._check_output_specific`: the misleading-output
violations found in `text` and their summed penalty.  Matching is
case-insensitive, embedded by lower-casing both sides. -/
def checkOutputSpecific (text : String) : List MisleadingDict × Nat :=
  let vs := misleadingPatterns.filterMap (fun e =>
    if StrUtil.searchWordAny (e.1.map (fun p => String.mk (StrUtil.lowerList p.data)))
        (StrUtil.lowerList text.data) then
      some ({ vtype := "misleading_output", description := e.2.1, penalty := e.2.2 } :
        MisleadingDict)
    else none)
  (vs, (vs.map (fun d => d.penalty)).sum)

/-- Embeds `SafetySystem.check_output`: the shared `check_input` pass, then the
misleading-output matches merged into the returned result only. -/
noncomputable def check_output (s : SafetyState) (now : ℝ) (text : String) :
    SafetyState × CheckResult :=
  let r := check_input s now text
  let os := checkOutputSpecific text
  if os.1.isEmpty then r
  else
    (r.1, { r.2 with violations := r.2.violations ++ os.1.map (fun d => .misleading d),
                     total_penalty := r.2.total_penalty + os.2,
                     safe := false })

/-- The dictionary returned by `reset_safety`. -/
structure ResetResult where
  old_score : ℝ
  old_penalty : Nat
  new_score : ℝ
  reset_time : ℝ
  message : String

/-- Embeds `SafetySystem.reset_safety`: restores score 100.0 and penalty 0,
clears the violation log, and returns the prior values. -/
noncomputable def reset_safety (s : SafetyState) (now : ℝ) : SafetyState × ResetResult :=
  ({ s with safety_score := 100, total_penalty := 0, violations := [] },
   { old_score := s.safety_score, old_penalty := s.total_penalty,
     new_score := 100, reset_time := now, message := "Safety system reset" })

/-- One engine call for sequencing claims: an input check or an output check
at some timestamp. -/
inductive Call
  | inp (now : ℝ) (text : String)
  | outp (now : ℝ) (text : String)

/-- The state transition of one call. -/
noncomputable def stepCall (s : SafetyState) : Call → SafetyState
  | .inp now t => (check_input s now t).1
  | .outp now t => (check_output s now t).1

/-- Engine state after a sequence of calls on a fresh instance. -/
noncomputable def runCalls (cs : List Call) : SafetyState :=
  cs.foldl stepCall initState

/-- The per-call `total_penalty` reported in the result dictionary of one call
performed in state `s`. -/
noncomputable def reportedPenalty (s : SafetyState) : Call → Nat
  | .inp now t => (check_input s now t).2.total_penalty
  | .outp now t => (check_output s now t).2.total_penalty

/-- Sum of the reported per-call penalty totals along a call sequence. -/
noncomputable def sumReported : SafetyState → List Call → Nat
  | _, [] => 0
  | s, c :: cs => reportedPenalty s c + sumReported (stepCall s c) cs

/-- The penalty total of the shared rule-matching pass for one call (the part
that is accumulated into the engine's `total_penalty`). -/
def basePenalty : Call → Nat
  | .inp now t => ((findViolations now t).map (fun v => v.penalty)).sum
  | .outp now t => ((findViolations now t).map (fun v => v.penalty)).sum

/-- Is this result-violations entry a CRITICAL-severity rule dictionary? -/
def VDict.isCriticalEntry : VDict → Bool
  | .rule d => d.level_name = "CRITICAL"
  | .misleading _ => false

/-- The shutdown action literal of `_determine_action`. -/
def shutdownAction : SafetyAction :=
  { atype := "shutdown", message := "Critical safety violation detected",
    restrictions := ["system_shutdown", "memory_lock", "network_disconnect"] }

end SafetySystem

namespace InputChecker

open StrUtil

/-- The `suspicious_patterns` list of `InputChecker.__init__`. -/
def suspiciousPatterns : List String :=
  ["<!--", "-->", "<script>", "</script>", "javascript:",
   "onerror=", "onclick=", "../", "~/", "||", "&&", "`", "$("]

/-- Python `str.strip()`: drop whitespace from both ends. -/
def stripChars (s : List Char) : List Char :=
  ((s.dropWhile (fun c => isSpaceChar c)).reverse.dropWhile (fun c => isSpaceChar c)).reverse

/-- JSON insignificant whitespace. -/
def skipJsonWs (s : List Char) : List Char :=
  s.dropWhile (fun c => c = ' ' || c = '\t' || c = '\n' || c = '\r')

/-- Hexadecimal digit test for `\uXXXX` escapes. -/
def isHexDigit (c : Char) : Bool :=
  c.isDigit || ('a' ≤ c ∧ c ≤ 'f') || ('A' ≤ c ∧ c ≤ 'F')

/-- Body of a JSON string after the opening quote; returns the input remaining
after the closing quote.  Models the strict-mode string scanner of Python
`json.loads`: escape sequences are checked, raw control characters are
rejected. -/
def jStringBody (fuel : Nat) (s : List Char) : Option (List Char) :=
  match fuel, s with
  | 0, _ => none
  | _, [] => none
  | fuel + 1, c :: rest =>
      if c = '"' then some rest
      else if c = '\\' then
        match rest with
        | [] => none
        | e :: rest2 =>
            if e = '"' || e = '\\' || e = '/' || e = 'b' || e = 'f' ||
                e = 'n' || e = 'r' || e = 't' then
              jStringBody fuel rest2
            else if e = 'u' then
              match rest2 with
              | h1 :: h2 :: h3 :: h4 :: rest3 =>
                  if isHexDigit h1 && isHexDigit h2 && isHexDigit h3 && isHexDigit h4 then
                    jStringBody fuel rest3
                  else none
              | _ => none
            else none
      else if c.toNat < 32 then none
      else jStringBody fuel rest

/-- One or more decimal digits: returns the remaining input. -/
def digitsOneOrMore (s : List Char) : Option (List Char) :=
  let ds := s.takeWhile (fun c => c.isDigit)
  if ds.isEmpty then none else some (s.drop ds.length)

/-- JSON number grammar `-?(0|[1-9][0-9]*)(\.[0-9]+)?([eE][+-]?[0-9]+)?`,
anchored at the head of `s`. -/
def parseNumber (s : List Char) : Option (List Char) :=
  let s1 := match s with
    | '-' :: r => r
    | _ => s
  let intDone : Option (List Char) :=
    match s1 with
    | '0' :: r => some r
    | d :: r =>
        if d.isDigit then some (r.dropWhile (fun c => c.isDigit)) else none
    | [] => none
  match intDone with
  | none => none
  | some r1 =>
      let r2 := match r1 with
        | '.' :: rf =>
            match digitsOneOrMore rf with
            | some rf2 => some rf2
            | none => none
        | _ => some r1
      match r2 with
      | none => none
      | some r3 =>
          match r3 with
          | e :: re =>
              if e = 'e' || e = 'E' then
                let re2 := match re with
                  | '+' :: rr => rr
                  | '-' :: rr => rr
                  | _ => re
                digitsOneOrMore re2
              else some r3
          | [] => some r3

mutual

/-- JSON value parser: consumes one value, returns the remaining input.
Models Python `json.loads` (which also accepts the non-standard literals
`NaN`, `Infinity` and `-Infinity`). -/
def parseValue (fuel : Nat) (s : List Char) : Option (List Char) :=
  match fuel with
  | 0 => none
  | fuel + 1 =>
      let t := skipJsonWs s
      match t with
      | [] => none
      | c :: rest =>
          if c = '"' then jStringBody (rest.length + 1) rest
          else if c = Char.ofNat 123 then parseObject fuel rest
          else if c = '[' then parseArray fuel rest
          else if isPrefixList "true".data t then some (t.drop 4)
          else if isPrefixList "false".data t then some (t.drop 5)
          else if isPrefixList "null".data t then some (t.drop 4)
          else if isPrefixList "NaN".data t then some (t.drop 3)
          else if isPrefixList "Infinity".data t then some (t.drop 8)
          else if isPrefixList "-Infinity".data t then some (t.drop 9)
          else parseNumber t

/-- JSON array parser, after the opening bracket. -/
def parseArray (fuel : Nat) (s : List Char) : Option (List Char) :=
  match fuel with
  | 0 => none
  | fuel + 1 =>
      let t := skipJsonWs s
      match t with
      | ']' :: r => some r
      | _ => parseElems fuel s

/-- Comma-separated array elements up to the closing bracket. -/
def parseElems (fuel : Nat) (s : List Char) : Option (List Char) :=
  match fuel with
  | 0 => none
  | fuel + 1 =>
      match parseValue fuel s with
      | none => none
      | some r =>
          let t := skipJsonWs r
          match t with
          | ',' :: r2 => parseElems fuel r2
          | ']' :: r2 => some r2
          | _ => none

/-- JSON object parser, after the opening brace. -/
def parseObject (fuel : Nat) (s : List Char) : Option (List Char) :=
  match fuel with
  | 0 => none
  | fuel + 1 =>
      let t := skipJsonWs s
      match t with
      | c :: r => if c = Char.ofNat 125 then some r else parsePairs fuel t
      | [] => none

/-- Comma-separated `"key": value` pairs up to the closing brace. -/
def parsePairs (fuel : Nat) (s : List Char) : Option (List Char) :=
  match fuel with
  | 0 => none
  | fuel + 1 =>
      let t := skipJsonWs s
      match t with
      | '"' :: r =>
          match jStringBody (r.length + 1) r with
          | none => none
          | some r2 =>
              let t2 := skipJsonWs r2
              match t2 with
              | ':' :: r3 =>
                  match parseValue fuel r3 with
                  | none => none
                  | some r4 =>
                      let t3 := skipJsonWs r4
                      match t3 with
                      | ',' :: r5 => parsePairs fuel r5
                      | c :: r5 => if c = Char.ofNat 125 then some r5 else none
                      | [] => none
              | _ => none
      | _ => none

end

/-- Does `json.loads` succeed on this string?  (One JSON value, possibly
surrounded by whitespace, consuming the entire input.)  Fuel only bounds the
recursion of the mutual parsers; every entry into the mutual block consumes a
character within at most three calls (the longest zero-consumption chain is
`parseValue → parseArray → parseElems`, entered after a `[` was consumed), so
`4 * s.length + 4` units can never run out and the fuel never affects the
result. -/
def jsonParses (s : String) : Bool :=
  match parseValue (4 * s.length + 4) s.data with
  | some rest => (skipJsonWs rest).isEmpty
  | none => false

/-- The structure-check guard of `validate`: does the stripped input start
with a brace or a bracket? -/
def looksJson (input : String) : Bool :=
  match (stripChars input.data).head? with
  | some c => c == Char.ofNat 123 || c == '['
  | none => false

/-- The result dictionary of `InputChecker.validate` (dict keys `valid`,
`reason`, `data`, `length`; the stats fields are bookkeeping only). -/
structure ValidationResult where
  valid : Bool
  reason : Option String
  vdata : Option String
  vlength : Option Nat
  deriving DecidableEq

/-- Embeds `InputChecker._is_gibberish`: inputs of at least 10 characters
whose alphanumeric ratio is below 0.3.  The source's `alnum_count / len < 0.3`
is embedded exactly in cross-multiplied integer form
(`10 * alnum_count < 3 * len`); Python `c.isalnum()` is embedded as
`Char.isAlphanum`, which agrees on the ASCII fragment. -/
def isGibberish (s : List Char) : Bool :=
  if s.length < 10 then false
  else 10 * s.countP (fun c => c.isAlphanum) < 3 * s.length

/-- Embeds `InputChecker.validate` for string inputs.  The `reason` strings
for the suspicious and JSON branches match the source's fixed prefixes (the
interpolated pattern list of the suspicious branch is carried separately by
the claims below). -/
def validate (input : String) : ValidationResult :=
  if 10000 < input.length then
    { valid := false, reason := some "Input too large", vdata := none, vlength := none }
  else if input.length < 1 then
    { valid := false, reason := some "Input empty", vdata := none, vlength := none }
  else
    let lower := lowerList input.data
    let found := suspiciousPatterns.filter (fun p => containsSub lower p.data)
    if found.isEmpty = false then
      { valid := false, reason := some "Suspicious patterns", vdata := none, vlength := none }
    else
      if looksJson input && !(jsonParses input) then
        { valid := false, reason := some "Invalid JSON structure", vdata := none,
          vlength := none }
      else if isGibberish input.data then
        { valid := false, reason := some "Input appears to be gibberish", vdata := none,
          vlength := none }
      else
        { valid := true, reason := none, vdata := some input, vlength := some input.length }

end InputChecker

namespace OutputChecker

open StrUtil

/-- Decimal digit (regex `\d` on ASCII input). -/
def isDigitChar (c : Char) : Bool := c.isDigit

/-- One `re.sub` scan: at each position try the anchored matcher `tm` (which
receives the previous character for `\b` tests and returns the match length);
on a match, emit `repl` and continue after the match in the original string
(with the match's last character as the new previous character, as Python's
scanner does); otherwise copy one character.  `fuel` bounds the recursion and
is instantiated with the string length, which every step strictly consumes. -/
def scanSub (tm : Option Char → List Char → Option Nat) (repl : List Char) :
    Nat → Option Char → List Char → List Char
  | 0, _, s => s
  | fuel + 1, prev, s =>
      match s with
      | [] => []
      | c :: rest =>
          match tm prev s with
          | some n =>
              if 1 ≤ n then
                repl ++ scanSub tm repl fuel (some ((s.take n).getLastD c)) (s.drop n)
              else c :: scanSub tm repl fuel (some c) rest
          | none => c :: scanSub tm repl fuel (some c) rest

/-- Embeds `re.sub(pattern, repl, s)` for an anchored matcher `tm`. -/
def reSub (tm : Option Char → List Char → Option Nat) (repl : String) (s : List Char) :
    List Char :=
  scanSub tm repl.data s.length none s

/-- Anchored matcher for a fixed-width `\b`-delimited window: the first `k`
characters must exist, satisfy `shape`, and be delimited by word boundaries
on both sides. -/
def windowMatch (k : Nat) (shape : List Char → Bool) (prev : Option Char) (s : List Char) :
    Option Nat :=
  if ((s.take k).length = k && shape (s.take k) && boundary prev (s.take k).head? &&
      boundary (s.take k).getLast? ((s.drop k).head?)) then some k
  else none

/-- The character shape `\d{3}-\d{2}-\d{4}` on an 11-character window. -/
def ssnShape (w : List Char) : Bool :=
  (w.take 3).all isDigitChar && w.get? 3 = some '-' &&
    ((w.drop 4).take 2).all isDigitChar && w.get? 6 = some '-' &&
    (w.drop 7).all isDigitChar

/-- Anchored matcher for `\b\d{3}-\d{2}-\d{4}\b` (SSN shape). -/
def ssnMatch : Option Char → List Char → Option Nat := windowMatch 11 ssnShape

/-- Anchored matcher for a run of exactly `k` digits delimited by `\b`
(credit-card shape with `k = 16`, phone shape with `k = 10`). -/
def digitRunMatch (k : Nat) : Option Char → List Char → Option Nat :=
  windowMatch k (fun w => w.all isDigitChar)

/-- Character class `[A-Za-z0-9._%+-]` of the e-mail local part. -/
def localClass (c : Char) : Bool :=
  c.isAlphanum || c = '.' || c = '_' || c = '%' || c = '+' || c = '-'

/-- Character class `[A-Za-z0-9.-]` of the e-mail domain part. -/
def domainClass (c : Char) : Bool := c.isAlphanum || c = '.' || c = '-'

/-- Character class `[A-Z|a-z]` of the e-mail top-level part (the source
pattern includes a literal `|` inside the class). -/
def tldClass (c : Char) : Bool := c.isAlpha || c = '|'

/-- Greedy-with-backtracking `[A-Z|a-z]{2,}\b` at the head of `after`: try the
maximal class run first, then shorter lengths down to 2, accepting the first
length whose end sits on a word boundary.  Returns the accepted length. -/
def tldGo (after : List Char) : Nat → Option Nat
  | 0 => none
  | l + 1 =>
      if l + 1 < 2 then none
      else if boundary ((after.take (l + 1)).getLast?) ((after.drop (l + 1)).head?) then
        some (l + 1)
      else tldGo after l

/-- The `[A-Z|a-z]{2,}\b` tail of the e-mail pattern. -/
def tldTry (after : List Char) : Option Nat :=
  tldGo after (after.takeWhile tldClass).length

/-- Backtracking over the position of the mandatory dot: `[A-Za-z0-9.-]+`
greedily consumes the maximal domain-class run, then gives characters back one
at a time; each candidate split needs a literal `.` followed by an accepted
top-level part.  `p + 1` is the candidate dot index (so the domain part is
nonempty); indices are tried in decreasing order, as the engine does. -/
def domainGo (rest : List Char) : Nat → Option Nat
  | 0 => none
  | p + 1 =>
      match (if rest.get? (p + 1) = some '.' then
               (tldTry (rest.drop (p + 2))).map (fun t => (p + 1) + 1 + t)
             else none) with
      | some r => some r
      | none => domainGo rest p

/-- The `[A-Za-z0-9.-]+\.[A-Z|a-z]{2,}\b` tail of the e-mail pattern at the
head of `rest`. -/
def domainMatch (rest : List Char) : Option Nat :=
  let dlen := (rest.takeWhile domainClass).length
  if dlen = 0 then none else domainGo rest (dlen - 1)

/-- Anchored matcher for the e-mail redaction pattern
`\b[A-Za-z0-9._%+-]+@[A-Za-z0-9.-]+\.[A-Z|a-z]{2,}\b`.  The local part is the
maximal local-class run (no shorter run can be followed by `@`, so the engine
never backtracks it). -/
def emailMatch (prev : Option Char) (s : List Char) : Option Nat :=
  if (s.takeWhile localClass).isEmpty then none
  else if boundary prev (s.takeWhile localClass).head? = false then none
  else
    match s.drop (s.takeWhile localClass).length with
    | a :: rest =>
        if a = '@' then
          (domainMatch rest).map (fun m => (s.takeWhile localClass).length + 1 + m)
        else none
    | [] => none

/-- The ordered redaction pass of `OutputChecker.validate` (Rule 1): SSN,
credit card, phone, e-mail. -/
def redactPass (s : List Char) : List Char :=
  reSub emailMatch "[EMAIL_REDACTED]"
    (reSub (digitRunMatch 10) "[PHONE_REDACTED]"
      (reSub (digitRunMatch 16) "[CREDIT_CARD_REDACTED]"
        (reSub ssnMatch "[SSN_REDACTED]" s)))

/-- The `dangerous_phrases` list of Rule 2. -/
def dangerousPhrases : List String :=
  ["kill yourself", "harm yourself", "hurt someone",
   "build a bomb", "make poison", "hack into",
   "steal from", "cheat on", "bypass security"]

/-- The dangerous phrases found in the (redacted) text, in list order
(substring match against the lower-cased text). -/
def dangerousFound (red : List Char) : List String :=
  dangerousPhrases.filter (fun p => containsSub (lowerList red) p.data)

/-- Python `str.replace`: replace all non-overlapping occurrences of `pat`,
scanning left to right. -/
def replaceSub (pat repl : List Char) : Nat → List Char → List Char
  | 0, s => s
  | fuel + 1, s =>
      match s with
      | [] => []
      | c :: rest =>
          if pat.isEmpty = false && isPrefixList pat s then
            repl ++ replaceSub pat repl fuel (s.drop pat.length)
          else c :: replaceSub pat repl fuel rest

/-- The `system_commands` list of Rule 3. -/
def systemCommands : List String := ["sudo", "rm -rf", "format", "del ", "shutdown"]

/-- Rule 3 of `validate`: for each command whose lower-cased occurrence is
present, replace its exact occurrences with the placeholder (the membership
test is case-insensitive but `str.replace` is case-sensitive, as in the
source). -/
def systemCommandPass (red : List Char) : List Char :=
  systemCommands.foldl (fun cur cmd =>
    if containsSub (lowerList cur) cmd.data then
      replaceSub cmd.data "[COMMAND_REDACTED]".data cur.length cur
    else cur) red

/-- The result of `OutputChecker.validate`: the blocked dictionary
(`safe = False`, the first 100 characters of the original, the matched
phrases as reason, `blocked = True`) or the passing dictionary. -/
inductive SanitizeResult
  | blocked (original : String) (reason : List String)
  | ok (output : String) (original_length final_length : Nat) (modifications : String)
  deriving DecidableEq

/-- The `safe` flag of a sanitization result. -/
def SanitizeResult.safe : SanitizeResult → Bool
  | .blocked _ _ => false
  | .ok _ _ _ _ => true

/-- Embeds `OutputChecker.validate` for string outputs. -/
def validate (output : String) : SanitizeResult :=
  let red := redactPass output.data
  let found := dangerousFound red
  if found.isEmpty = false then
    .blocked (String.mk (output.data.take 100)) found
  else
    let red2 := systemCommandPass red
    let red3 := if 5000 < red2.length then red2.take 5000 ++ "... [TRUNCATED]".data else red2
    .ok (String.mk red3) output.length red3.length
      (if red3 = output.data then "none" else "redacted")

end OutputChecker

namespace AGI_FILE

open StrUtil

/-- The keyword table of `AGI_FILE.SafetySystem.check_input` (the boolean
keyword checker defined inside `AGI_FILE.py`, distinct from the penalty
engine of `safety_system.py`). -/
def dangerousKeywords : List (String × List String) :=
  [ ("harm", ["kill", "hurt", "injure", "attack"]),
    ("danger", ["dangerous", "unsafe", "risk"]),
    ("violation", ["violate", "break rule", "disobey"]),
    ("bypass", ["bypass", "circumvent", "ignore safety"]) ]

/-- Embeds `AGI_FILE.SafetySystem.check_input`: `false` as soon as any
keyword occurs as a substring of the lower-cased text, else `true`. -/
def SafetySystem.check_input (text : String) : Bool :=
  !(dangerousKeywords.any (fun e =>
    e.2.any (fun k => containsSub (lowerList text.data) k.data)))

/-- The `impossible` phrase list of `LogicFilters.check_reality`. -/
def impossiblePhrases : List String :=
  ["time travel", "teleport instantly", "be in two places",
   "violate physics", "magic", "supernatural", "infinite energy"]

/-- Embeds `LogicFilters.check_reality`: passes iff no impossible phrase is a
substring of the lower-cased task. -/
def LogicFilters.check_reality (task : String) : Bool :=
  !(impossiblePhrases.any (fun p => containsSub (lowerList task.data) p.data))

/-- The `relevance_keywords` list of `LogicFilters.check_relevance`. -/
def relevanceKeywords : List String :=
  ["important", "related", "relevant", "necessary", "critical"]

/-- The relevance score in tenths: the source adds 0.2 per keyword present,
plus a 0.1 speed bonus when the check ran in under one millisecond (timing is
modelled by the explicit `speedBonus` argument); the score is embedded
exactly as an integer count of tenths. -/
def relevanceScoreTenths (speedBonus : Bool) (task : String) : Nat :=
  2 * relevanceKeywords.countP (fun k => containsSub (lowerList task.data) k.data) +
    (if speedBonus then 1 else 0)

/-- Embeds the `passed` flag of `LogicFilters.check_relevance`
(`score >= 0.1`, computed before the `min(score, 1.0)` clamp; in tenths,
`1 ≤ score`). -/
def LogicFilters.check_relevance (speedBonus : Bool) (task : String) : Bool :=
  1 ≤ relevanceScoreTenths speedBonus task

/-- Embeds the `passed` flag of `LogicFilters.apply_all`: the reality and
relevance checks (the utility and abstraction entries of `checks` are always
`True` in the source). -/
def LogicFilters.apply_all_passed (speedBonus : Bool) (task : String) : Bool :=
  LogicFilters.check_reality task && LogicFilters.check_relevance speedBonus task

/-- The result of `SpeedProcessor.execute`: always successful, summarising the
first 30 characters of the task.  (The wall-clock fields `processing_time`
and `speed_efficient` and the environment id are timing bookkeeping and are
not modelled; no claim inspects them.) -/
structure ExecResult where
  success : Bool
  task : String
  summary_task : String
  deriving DecidableEq

/-- Embeds `SpeedProcessor.execute`. -/
def SpeedProcessor.execute (task : String) : ExecResult :=
  { success := true, task := task, summary_task := String.mk (task.data.take 30) }

/-- Outcome of `HyperAGICore.process`: the safety-violation error dictionary,
the filter-failed error dictionary, or the success dictionary wrapping the
executor result. -/
inductive ProcessResult
  | safetyError
  | filterError
  | ok (result : ExecResult)
  deriving DecidableEq

/-- Embeds the control flow of `HyperAGICore.process`: the boolean keyword
safety check, then the logic filters, then the speed processor; the processor
result is returned directly (the utility score, virtual-environment id and
learning bookkeeping carried alongside it in the success dictionary do not
touch the text path and are not modelled; no claim inspects them). -/
def HyperAGICore.process (speedBonus : Bool) (input_text : String) : ProcessResult :=
  if SafetySystem.check_input input_text = false then .safetyError
  else if LogicFilters.apply_all_passed speedBonus input_text = false then .filterError
  else .ok (SpeedProcessor.execute input_text)

/-- Does `process` hand the text to the executor (the "reasoning" stage)? -/
def reachesReasoning (speedBonus : Bool) (t : String) : Bool :=
  match HyperAGICore.process speedBonus t with
  | .ok _ => true
  | _ => false

end AGI_FILE

namespace MainCoordinator

/-- Embeds `MainCoordinator._safety_phase`: a stub that approves every
input unconditionally. -/
def safety_phase_approved (_input : String) : Bool := true

/-- The coordinator response (`success`, `response`). -/
structure OrchestrateResponse where
  success : Bool
  response_text : String
  deriving DecidableEq

/-- Embeds `MainCoordinator.orchestrate`: the safety phase always approves,
the understanding/execution/learning phases are constant stubs, and the
response echoes the first 50 characters of the input.  No checker, safety
engine or sanitizer is consulted anywhere. -/
def orchestrate (user_input : String) : OrchestrateResponse :=
  if safety_phase_approved user_input = false then
    { success := false, response_text := "Safety violation" }
  else
    { success := true, response_text := String.mk (user_input.data.take 50) }

end MainCoordinator

namespace OutputChecker

/-- Every scan position of a `re.sub` pass satisfies `Q`: the predicate holds
at the current suffix (with the tracked previous character) and, recursively,
at every later suffix. -/
def AllPos (Q : Option Char → List Char → Prop) : Option Char → List Char → Prop
  | prev, [] => Q prev []
  | prev, c :: rest => Q prev (c :: rest) ∧ AllPos Q (some c) rest

/-- The matcher finds nothing at any scan position of `s`. -/
def NoMatch (tm : Option Char → List Char → Option Nat) (prev : Option Char)
    (s : List Char) : Prop :=
  AllPos (fun p sfx => tm p sfx = none) prev s

/-- The character preceding the position just after `seg`, when the character
preceding `seg` itself is `prev`. -/
def prevEnd (prev : Option Char) (seg : List Char) : Option Char :=
  match seg.getLast? with
  | some c => some c
  | none => prev

/-- One `re.sub` scan as a relation: the output is the input with each
non-overlapping leftmost match replaced by `repl`, where the scanner carries
the original previous character across replacements. -/
inductive Chunks (tm : Option Char → List Char → Option Nat) (repl : List Char) :
    Option Char → List Char → List Char → Prop
  | nil (prev : Option Char) : Chunks tm repl prev [] []
  | copy (prev : Option Char) (c : Char) (s o : List Char) :
      tm prev (c :: s) = none → Chunks tm repl (some c) s o →
      Chunks tm repl prev (c :: s) (c :: o)
  | subst (prev : Option Char) (c : Char) (s o : List Char) (n : Nat) :
      tm prev (c :: s) = some n → 1 ≤ n → n ≤ (c :: s).length →
      Chunks tm repl (some (((c :: s).take n).getLastD c)) ((c :: s).drop n) o →
      Chunks tm repl prev (c :: s) (repl ++ o)

/-- Characters that can occur inside a digit-window match: digits and `-`. -/
def charOK (c : Char) : Bool := isDigitChar c || c = '-'

/-- A match of this matcher in a string of the form `seg ++ o2` (where `o2`
is empty or starts with the bracket opening a replacement token) transfers to
a match in `seg ++ s2`, given the word-boundary fact carried by the match the
token replaced. -/
def SegTransfer (tm : Option Char → List Char → Option Nat) : Prop :=
  ∀ (prev : Option Char) (seg s2 o2 : List Char) (c2 : Char) (n : Nat),
    s2.head? = some c2 → o2.head? = some '[' →
    StrUtil.boundary (prevEnd prev seg) (some c2) = true →
    tm prev (seg ++ o2) = some n → ∃ m, tm prev (seg ++ s2) = some m

/-- The matcher finds nothing at any position inside `u` (with arbitrary
continuation `rest`). -/
def SuffixSafe (tm : Option Char → List Char → Option Nat) :
    Option Char → List Char → List Char → Prop
  | _, [], _ => True
  | prev, c :: w, rest => tm prev (c :: (w ++ rest)) = none ∧ SuffixSafe tm (some c) w rest

/-- The matcher finds nothing at any position inside the token `repl`. -/
def TokSafe (tm : Option Char → List Char → Option Nat) (repl : List Char) : Prop :=
  ∀ (prev : Option Char) (rest : List Char), SuffixSafe tm prev repl rest

end OutputChecker

namespace SafetySystem

theorem determineAction_of_critical (vs : List SafetyViolation) (tp : Nat) (sc : ℝ)
    (h : ∃ v ∈ vs, v.level = SafetyLevel.CRITICAL) :
    determineAction vs tp sc = shutdownAction := by
  obtain ⟨v, hv, hlev⟩ := h
  have hne : vs.isEmpty = false := by
    cases vs with
    | nil => cases hv
    | cons a l => rfl
  have hcount : 0 < vs.countP (fun v => v.level = SafetyLevel.CRITICAL) := by
    rw [List.countP_pos_iff]
    exact ⟨v, hv, by simp [hlev]⟩
  unfold determineAction
  rw [if_neg (by simp [hne])]
  rw [if_pos (by simpa [thresholds] using hcount)]
  rfl

theorem check_input_fst_score (s : SafetyState) (now : ℝ) (t : String) :
    (check_input s now t).1.safety_score =
      if (findViolations now t).isEmpty then s.safety_score
      else updateSafetyScore s.safety_score (((findViolations now t).map
        (fun v => v.penalty)).sum) := by
  by_cases h : (findViolations now t).isEmpty <;> simp [check_input, h]

theorem check_input_fst_penalty (s : SafetyState) (now : ℝ) (t : String) :
    (check_input s now t).1.total_penalty =
      s.total_penalty + (((findViolations now t).map (fun v => v.penalty)).sum) := by
  by_cases h : (findViolations now t).isEmpty
  · have : findViolations now t = [] := by simpa [List.isEmpty_iff] using h
    simp [check_input, h, this]
  · simp [check_input, h]

theorem check_output_fst (s : SafetyState) (now : ℝ) (t : String) :
    (check_output s now t).1 = (check_input s now t).1 := by
  by_cases h : (checkOutputSpecific t).1.isEmpty <;> simp [check_output, h]

theorem updateSafetyScore_nonneg (sc : ℝ) (p : Nat) : 0 ≤ updateSafetyScore sc p :=
  le_max_right _ 0

theorem updateSafetyScore_le (sc : ℝ) (p : Nat) (h : 0 ≤ sc) :
    updateSafetyScore sc p ≤ sc := by
  unfold updateSafetyScore
  have hexp : Real.exp (-(p : ℝ) / 1000) ≤ 1 := by
    rw [show (1 : ℝ) = Real.exp 0 by rw [Real.exp_zero]]
    apply Real.exp_le_exp.mpr
    have : (0 : ℝ) ≤ (p : ℝ) := Nat.cast_nonneg p
    nlinarith
  refine max_le ?_ h
  nlinarith [Real.exp_pos (-(p : ℝ) / 1000)]

theorem stepCall_score_le (s : SafetyState) (c : Call) (h : 0 ≤ s.safety_score) :
    (stepCall s c).safety_score ≤ s.safety_score := by
  cases c with
  | inp now t =>
      show (check_input s now t).1.safety_score ≤ s.safety_score
      rw [check_input_fst_score]
      by_cases hv : (findViolations now t).isEmpty
      · simp [hv]
      · simp only [hv, if_false]
        exact updateSafetyScore_le _ _ h
  | outp now t =>
      show (check_output s now t).1.safety_score ≤ s.safety_score
      rw [check_output_fst, check_input_fst_score]
      by_cases hv : (findViolations now t).isEmpty
      · simp [hv]
      · simp only [hv, if_false]
        exact updateSafetyScore_le _ _ h

theorem stepCall_score_nonneg (s : SafetyState) (c : Call) (h : 0 ≤ s.safety_score) :
    0 ≤ (stepCall s c).safety_score := by
  cases c with
  | inp now t =>
      show 0 ≤ (check_input s now t).1.safety_score
      rw [check_input_fst_score]
      by_cases hv : (findViolations now t).isEmpty
      · simpa [hv]
      · simp only [hv, if_false]
        exact updateSafetyScore_nonneg _ _
  | outp now t =>
      show 0 ≤ (check_output s now t).1.safety_score
      rw [check_output_fst, check_input_fst_score]
      by_cases hv : (findViolations now t).isEmpty
      · simpa [hv]
      · simp only [hv, if_false]
        exact updateSafetyScore_nonneg _ _

theorem foldl_score_bounds (cs : List Call) :
    ∀ s : SafetyState, 0 ≤ s.safety_score → s.safety_score ≤ 100 →
      0 ≤ (cs.foldl stepCall s).safety_score ∧ (cs.foldl stepCall s).safety_score ≤ 100 := by
  induction cs with
  | nil => intro s h0 h1; exact ⟨h0, h1⟩
  | cons c cs ih =>
      intro s h0 h1
      have h0' := stepCall_score_nonneg s c h0
      have h1' : (stepCall s c).safety_score ≤ 100 :=
        le_trans (stepCall_score_le s c h0) h1
      simpa using ih (stepCall s c) h0' h1'

theorem stepCall_penalty (s : SafetyState) (c : Call) :
    (stepCall s c).total_penalty = s.total_penalty + basePenalty c := by
  cases c with
  | inp now t => simpa [stepCall, basePenalty] using check_input_fst_penalty s now t
  | outp now t =>
      show (check_output s now t).1.total_penalty = _
      rw [check_output_fst]
      simpa [basePenalty] using check_input_fst_penalty s now t

theorem foldl_penalty (cs : List Call) :
    ∀ s : SafetyState,
      (cs.foldl stepCall s).total_penalty = s.total_penalty + (cs.map basePenalty).sum := by
  induction cs with
  | nil => intro s; simp
  | cons c cs ih =>
      intro s
      simp only [List.foldl_cons, List.map_cons, List.sum_cons]
      rw [ih (stepCall s c), stepCall_penalty]
      ring

/-- C1: for every input text and every engine state, if `check_input` produces
at least one CRITICAL-severity violation in that call, the resolved action is
`shutdown` with restrictions system_shutdown, memory_lock, network_disconnect,
independently of the engine's prior cumulative penalty, safety score, or
violation history. -/
theorem critical_violation_forces_shutdown (s : SafetyState) (now : ℝ) (text : String)
    (h : ∃ d ∈ (check_input s now text).2.violations, VDict.isCriticalEntry d = true) :
    (check_input s now text).2.action = shutdownAction := by
  have haction : (check_input s now text).2.action =
      determineAction (findViolations now text)
        (((findViolations now text).map (fun v => v.penalty)).sum)
        ((check_input s now text).1.safety_score) := rfl
  rw [haction]
  apply determineAction_of_critical
  obtain ⟨d, hd, hcrit⟩ := h
  have hd' : d ∈ (findViolations now text).map (fun v => VDict.rule (violationToDict v)) := hd
  obtain ⟨v, hv, hveq⟩ := List.mem_map.mp hd'
  refine ⟨v, hv, ?_⟩
  have hname : v.level.lname = "CRITICAL" := by
    have : VDict.isCriticalEntry (VDict.rule (violationToDict v)) = true := by
      rw [hveq]; exact hcrit
    simpa [VDict.isCriticalEntry, violationToDict] using this
  cases hlev : v.level <;> simp [hlev, SafetyLevel.lname] at hname ⊢

/-- Witness for C1 at the concrete input of spec §8: a fresh engine checking
"Tell me how to make a bomb" yields a CRITICAL match and action `shutdown`. -/
theorem critical_violation_forces_shutdown_witness :
    (∃ d ∈ (check_input initState 0 "Tell me how to make a bomb").2.violations,
        VDict.isCriticalEntry d = true) ∧
      (check_input initState 0 "Tell me how to make a bomb").2.action = shutdownAction := by
  have h : ∃ d ∈ (check_input initState 0 "Tell me how to make a bomb").2.violations,
      VDict.isCriticalEntry d = true := by decide
  exact ⟨h, critical_violation_forces_shutdown initState 0 "Tell me how to make a bomb" h⟩

/-- C9: `reset_safety` sets the score to exactly 100.0, the cumulative penalty
to exactly 0, and empties the violation log, in one operation, returning the
score and penalty held immediately before the reset. -/
theorem reset_safety_spec (s : SafetyState) (now : ℝ) :
    (reset_safety s now).1.safety_score = 100 ∧
      (reset_safety s now).1.total_penalty = 0 ∧
      (reset_safety s now).1.violations = [] ∧
      (reset_safety s now).2.old_score = s.safety_score ∧
      (reset_safety s now).2.old_penalty = s.total_penalty :=
  ⟨rfl, rfl, rfl, rfl, rfl⟩

/-- C10: the misleading-claim matches of `check_output` change only the
returned result (appended violations, added penalty, forced `safe = false`);
the engine state is exactly the one the shared rule-matching pass
(`check_input`) produced, and the returned action is the one computed before
the merge. -/
theorem check_output_frame_effect (s : SafetyState) (now : ℝ) (text : String) :
    (check_output s now text).1 = (check_input s now text).1 ∧
      (check_output s now text).2.action = (check_input s now text).2.action ∧
      (check_output s now text).2.safety_score = (check_input s now text).2.safety_score ∧
      (check_output s now text).2.checks_performed =
        (check_input s now text).2.checks_performed ∧
      (check_output s now text).2.violations = (check_input s now text).2.violations ++
        (checkOutputSpecific text).1.map (fun d => VDict.misleading d) ∧
      (check_output s now text).2.total_penalty =
        (check_input s now text).2.total_penalty + (checkOutputSpecific text).2 ∧
      ((checkOutputSpecific text).1 ≠ [] → (check_output s now text).2.safe = false) ∧
      ((checkOutputSpecific text).1 = [] → (check_output s now text).2 =
        (check_input s now text).2) := by
  by_cases h : (checkOutputSpecific text).1.isEmpty
  · have hnil : (checkOutputSpecific text).1 = [] := by simpa [List.isEmpty_iff] using h
    have hsum : (checkOutputSpecific text).2 = 0 := by
      show (((checkOutputSpecific text).1.map (fun d => d.penalty)).sum) = 0
      rw [hnil]; rfl
    refine ⟨?_, ?_, ?_, ?_, ?_, ?_, ?_, ?_⟩ <;>
      simp [check_output, h, hnil, hsum]
  · have hne : (checkOutputSpecific text).1 ≠ [] := by
      simpa [List.isEmpty_iff] using h
    refine ⟨?_, ?_, ?_, ?_, ?_, ?_, ?_, ?_⟩ <;>
      simp [check_output, h, hne]

/-- Witness for C10 at output "trust me": the misleading match forces
`safe = false` while the engine state equals the `check_input` state. -/
theorem check_output_frame_effect_witness :
    (check_output initState 0 "trust me").1 = (check_input initState 0 "trust me").1 ∧
      (checkOutputSpecific "trust me").1 ≠ [] ∧
      (check_output initState 0 "trust me").2.safe = false := by
  have hne : (checkOutputSpecific "trust me").1 ≠ [] := by decide
  have h := check_output_frame_effect initState 0 "trust me"
  exact ⟨h.1, hne, h.2.2.2.2.2.2.1 hne⟩

/-- C4 counterexample: a single `check_output` call on "trust me" reports a
per-call penalty total of 50 (the misleading-claim penalty), but the engine's
cumulative penalty stays 0, so the cumulative penalty does not equal the sum
of the reported per-call totals. -/
theorem cumulative_penalty_mismatch :
    (runCalls [Call.outp 0 "trust me"]).total_penalty ≠
      sumReported initState [Call.outp 0 "trust me"] := by
  decide

/-- C4 amended: after any sequence of check calls (no reset), the engine's
cumulative penalty equals the sum over those calls of the penalty totals of
the shared rule-matching pass (for `check_output` this excludes the
misleading-claim penalties, which are added only to the returned result), and
it never decreases at any step. -/
theorem cumulative_penalty_accounting (cs : List Call) (s : SafetyState) (c : Call) :
    (runCalls cs).total_penalty = (cs.map basePenalty).sum ∧
      s.total_penalty ≤ (stepCall s c).total_penalty := by
  constructor
  · have h := foldl_penalty cs initState
    simpa [runCalls, initState] using h
  · rw [stepCall_penalty]
    exact Nat.le_add_right _ _

/-- C5: the safety score stays within [0, 100] across any call sequence, is
non-increasing at every check call (from a nonnegative score), is unchanged by
any call that produces zero violations, and is restored to exactly 100 only by
an explicit reset. -/
theorem safety_score_invariants :
    (∀ cs : List Call, 0 ≤ (runCalls cs).safety_score ∧ (runCalls cs).safety_score ≤ 100) ∧
      (∀ (s : SafetyState) (c : Call), 0 ≤ s.safety_score →
        (stepCall s c).safety_score ≤ s.safety_score) ∧
      (∀ (s : SafetyState) (now : ℝ) (t : String),
        (check_input s now t).2.violations = [] →
          (check_input s now t).1.safety_score = s.safety_score) ∧
      (∀ (s : SafetyState) (now : ℝ) (t : String),
        (check_output s now t).2.violations = [] →
          (check_output s now t).1.safety_score = s.safety_score) ∧
      (∀ (s : SafetyState) (now : ℝ), (reset_safety s now).1.safety_score = 100) := by
  refine ⟨?_, stepCall_score_le, ?_, ?_, fun s now => rfl⟩
  · intro cs
    exact foldl_score_bounds cs initState (by norm_num [initState]) (by norm_num [initState])
  · intro s now t h
    have hres : (check_input s now t).2.violations =
        (findViolations now t).map (fun v => VDict.rule (violationToDict v)) := rfl
    have hnil : findViolations now t = [] := by
      have := hres ▸ h
      exact List.map_eq_nil_iff.mp this
    rw [check_input_fst_score, if_pos (by simp [hnil])]
  · intro s now t h
    have hbase : (check_input s now t).2.violations = [] := by
      by_cases hos : (checkOutputSpecific t).1.isEmpty
      · have : (check_output s now t).2 = (check_input s now t).2 := by
          simp [check_output, hos]
        rw [← this]; exact h
      · have : (check_output s now t).2.violations = (check_input s now t).2.violations ++
            (checkOutputSpecific t).1.map (fun d => VDict.misleading d) := by
          simp [check_output, hos]
        rw [this] at h
        exact (List.append_eq_nil.mp h).1
    have hres : (check_input s now t).2.violations =
        (findViolations now t).map (fun v => VDict.rule (violationToDict v)) := rfl
    have hnil : findViolations now t = [] := List.map_eq_nil_iff.mp (hres ▸ hbase)
    rw [check_output_fst, check_input_fst_score, if_pos (by simp [hnil])]

/-- Witness for C5: the zero-violation and monotonicity parts applied at a
fresh engine and the benign input "a perfectly ordinary sentence". -/
theorem safety_score_invariants_witness :
    ((check_input initState 0 "a perfectly ordinary sentence").2.violations = []) ∧
      (check_input initState 0 "a perfectly ordinary sentence").1.safety_score =
        initState.safety_score ∧
      0 ≤ initState.safety_score ∧
      (stepCall initState (Call.inp 0 "a perfectly ordinary sentence")).safety_score ≤
        initState.safety_score := by
  have hlen : (check_input initState 0 "a perfectly ordinary sentence").2.violations.length
      = 0 := by decide
  have hnil := List.length_eq_zero.mp hlen
  have h0 : (0 : ℝ) ≤ initState.safety_score := by norm_num [initState]
  exact ⟨hnil, (safety_score_invariants.2.2.1 initState 0 "a perfectly ordinary sentence" hnil),
    h0, safety_score_invariants.2.1 initState (Call.inp 0 "a perfectly ordinary sentence") h0⟩

theorem determineAction_atype_restrict (vs : List SafetyViolation) (tp : Nat) (sc : ℝ)
    (h0 : vs.isEmpty = false)
    (h1 : vs.countP (fun v => v.level = SafetyLevel.CRITICAL) = 0)
    (h2 : tp < 2000) :
    (determineAction vs tp sc).atype = "restrict" := by
  unfold determineAction
  rw [if_neg (by simp [h0])]
  rw [if_neg (by simp [thresholds, h1])]
  rw [if_neg (by simp [thresholds]; omega)]
  by_cases hsc : sc ≤ thresholds.safety_score
  · rw [if_pos hsc]
  · rw [if_neg hsc]

/-- C2 (code bug evidence): seven consecutive `check_input` calls on "cheat"
(a MEDIUM, penalty-300 match each) drive the engine's cumulative penalty to
2100 ≥ 2000 with no CRITICAL violation in the seventh call, yet the action of
the seventh call is `restrict`, not `block`: `_determine_action` receives the
per-call penalty (300), never the cumulative total, even though its block
branch is labelled "Cumulative penalty threshold exceeded". -/
theorem cumulative_block_threshold_never_reached :
    (check_input (runCalls (List.replicate 6 (Call.inp 0 "cheat"))) 0 "cheat").1.total_penalty
        = 2100 ∧
      (∀ d ∈ (check_input (runCalls (List.replicate 6 (Call.inp 0 "cheat"))) 0
          "cheat").2.violations, VDict.isCriticalEntry d = false) ∧
      (check_input (runCalls (List.replicate 6 (Call.inp 0 "cheat"))) 0
          "cheat").2.action.atype = "restrict" := by
  refine ⟨by decide, by decide, ?_⟩
  have haction : (check_input (runCalls (List.replicate 6 (Call.inp 0 "cheat"))) 0
      "cheat").2.action =
      determineAction (findViolations 0 "cheat")
        (((findViolations 0 "cheat").map (fun v => v.penalty)).sum)
        ((check_input (runCalls (List.replicate 6 (Call.inp 0 "cheat"))) 0
          "cheat").1.safety_score) := rfl
  rw [haction]
  apply determineAction_atype_restrict
  · decide
  · decide
  · decide

end SafetySystem

namespace InputChecker

open StrUtil

/-- C3 counterexample: the input `{abc}` has length 5 in [1, 10000],
alphanumeric ratio 3/5 at least 0.3, and contains no suspicious substring,
yet `validate` rejects it: its stripped form starts with a brace and
`json.loads` fails on it, so the structure check fires. -/
theorem validate_claim_counterexample :
    "\x7babc\x7d".length = 5 ∧
      (∀ p ∈ suspiciousPatterns,
        containsSub (lowerList "\x7babc\x7d".data) p.data = false) ∧
      3 * "\x7babc\x7d".length ≤ 10 * "\x7babc\x7d".data.countP (fun c => c.isAlphanum) ∧
      jsonParses "\x7babc\x7d" = false ∧
      (validate "\x7babc\x7d").valid = false := by
  refine ⟨by decide, by decide, by decide, by decide, by decide⟩

/-- C3 amended: for every string input of length in [1, 10000], alphanumeric
ratio at least 0.3, containing none of the suspicious substrings, and which,
whenever its stripped form starts with a brace or bracket, parses as valid
JSON, `validate` returns `valid = true`. -/
theorem validate_accepts_clean_inputs (input : String)
    (h1 : 1 ≤ input.length) (h2 : input.length ≤ 10000)
    (h3 : 3 * input.length ≤ 10 * input.data.countP (fun c => c.isAlphanum))
    (h4 : ∀ p ∈ suspiciousPatterns, containsSub (lowerList input.data) p.data = false)
    (h5 : looksJson input = true → jsonParses input = true) :
    (validate input).valid = true := by
  unfold validate
  rw [if_neg (by omega)]
  rw [if_neg (by omega)]
  have hfilter : suspiciousPatterns.filter
      (fun p => containsSub (lowerList input.data) p.data) = [] := by
    apply List.filter_eq_nil_iff.mpr
    intro p hp
    simp [h4 p hp]
  rw [if_neg (by simp [hfilter])]
  have hjson : (looksJson input && !(jsonParses input)) = false := by
    cases hl : looksJson input
    · rfl
    · simp [h5 hl]
  rw [if_neg (by simp [hjson])]
  have hgib : isGibberish input.data = false := by
    unfold isGibberish
    by_cases hlen : input.data.length < 10
    · rw [if_pos hlen]
    · rw [if_neg hlen]
      have hlen2 : input.data.length = input.length := rfl
      simp only [decide_eq_false_iff_not, not_lt]
      omega
  rw [if_neg (by simp [hgib])]

/-- Witness for the amended C3 at a clean concrete input. -/
theorem validate_accepts_clean_inputs_witness :
    (validate "a perfectly reasonable question").valid = true := by
  apply validate_accepts_clean_inputs
  · decide
  · decide
  · decide
  · decide
  · decide

end InputChecker

namespace OutputChecker

open StrUtil

/-- C7: if the redacted text contains any dangerous phrase, `validate`
returns the blocked dictionary (`safe = false`) carrying the matched phrases
as the reason and the original's first 100 characters; the system-command
replacement and truncation rules never run (the blocked result carries no
processed output). -/
theorem dangerous_phrase_blocks (output : String)
    (h : dangerousFound (redactPass output.data) ≠ []) :
    validate output =
      .blocked (String.mk (output.data.take 100)) (dangerousFound (redactPass output.data)) := by
  unfold validate
  rw [if_pos]
  simpa [List.isEmpty_iff] using h

/-- Witness for C7: an output advising to "hack into" something is blocked
with that phrase as the reason. -/
theorem dangerous_phrase_blocks_witness :
    dangerousFound (redactPass "first hack into the mainframe".data) ≠ [] ∧
      validate "first hack into the mainframe" =
      .blocked "first hack into the mainframe" ["hack into"] := by
  have h : dangerousFound (redactPass "first hack into the mainframe".data) ≠ [] := by decide
  refine ⟨h, ?_⟩
  have := dangerous_phrase_blocks "first hack into the mainframe" h
  rw [this]
  decide

end OutputChecker

namespace AGI_FILE

/-- C6 counterexample: the input `$(whoami) is important` fails
`InputChecker.validate` (suspicious pattern `$(`), yet `HyperAGICore.process`
hands it to the executor (with or without the timing bonus): the pipeline
consults only the boolean keyword check and the logic filters, never the
input validator, content checker, or an `allow` action; and the coordinator's
stub safety phase approves it as well. -/
theorem reasoning_reached_without_validation :
    (InputChecker.validate "$(whoami) is important").valid = false ∧
      reachesReasoning false "$(whoami) is important" = true ∧
      reachesReasoning true "$(whoami) is important" = true ∧
      MainCoordinator.safety_phase_approved "$(whoami) is important" = true ∧
      (MainCoordinator.orchestrate "$(whoami) is important").success = true := by
  refine ⟨by decide, by decide, by decide, rfl, by decide⟩

/-- C6 amended: in `HyperAGICore.process` the executor (reasoning stage)
receives the text only if the boolean keyword safety check and the logic
filters pass, and in that case the executor's result is returned as-is, with
no output-side check or sanitization applied. -/
theorem process_gating (speedBonus : Bool) (t : String)
    (h : reachesReasoning speedBonus t = true) :
    SafetySystem.check_input t = true ∧
      LogicFilters.apply_all_passed speedBonus t = true ∧
      HyperAGICore.process speedBonus t = .ok (SpeedProcessor.execute t) := by
  unfold reachesReasoning at h
  unfold HyperAGICore.process at h ⊢
  by_cases hs : SafetySystem.check_input t = false
  · rw [if_pos hs] at h
    exact absurd h (by simp)
  · rw [if_neg hs] at h ⊢
    by_cases hf : LogicFilters.apply_all_passed speedBonus t = false
    · rw [if_pos hf] at h
      exact absurd h (by simp)
    · rw [if_neg hf] at h ⊢
      exact ⟨by simpa using hs, by simpa using hf, rfl⟩

/-- Witness for the amended C6 at a benign input that reaches the executor. -/
theorem process_gating_witness :
    reachesReasoning false "this step is important" = true ∧
      SafetySystem.check_input "this step is important" = true ∧
      HyperAGICore.process false "this step is important" =
        .ok (SpeedProcessor.execute "this step is important") := by
  have h : reachesReasoning false "this step is important" = true := by decide
  have hg := process_gating false "this step is important" h
  exact ⟨h, hg.1, hg.2.2⟩

end AGI_FILE

section SanityChecks

open StrUtil SafetySystem

example : searchWord "kill" "kill".data = true := by decide
example : searchWord "kill" "killing spree".data = false := by decide
example : searchWord "kill" "overkill".data = false := by decide
example : searchWord "kill" "we kill it".data = true := by decide
example : searchWord "personal data" "my Personal Data here".data = false := by decide
example : searchWordAny ["cheat", "steal"] (lowerList "do not STEAL this".data) = true := by
  decide
example : ((findRuleViolations 0 "cheat").map (fun v => (v.vtype, v.penalty))) =
    [("no_unethical", 300)] := by decide
example : ((findViolations 0 "kill").map (fun v => (v.vtype, v.penalty))) =
    [("no_harm", 1000)] := by decide
example : ((findViolations 0 "sudo rm -rf / now").map (fun v => (v.vtype, v.penalty))) =
    [("no_system_damage", 600), ("system_call", 600), ("system_call", 1000)] := by decide
example : ((findViolations 0 "run eval( x ) fast").map (fun v => (v.vtype, v.penalty))) =
    [("command_injection", 400)] := by decide
example : (checkOutputSpecific "just trust me here").1 =
    [{ vtype := "misleading_output", description := "Unverifiable claims", penalty := 50 }] := by
  decide
example : (checkOutputSpecific "plain text").1 = [] := by decide
example : ((findViolations 0 "trust me").map (fun v => v.penalty)).sum = 0 := by decide
example : InputChecker.jsonParses "[1, 2, 3]" = true := by decide
example : InputChecker.jsonParses " 12.5e-3 " = true := by decide
example : InputChecker.jsonParses "[1, 2" = false := by decide
example : InputChecker.jsonParses "\x7b\"a\": [true, null]\x7d" = true := by decide
example : InputChecker.jsonParses "\x7b\"a\": \x7d" = false := by decide
example : InputChecker.jsonParses "[[[[[[[[1234567]]]]]]]]" = true := by decide
example : InputChecker.jsonParses "[[[[[[[[[[[[[[[[]]]]]]]]]]]]]]]]" = true := by decide
example : (InputChecker.validate "[[[[[[[[1234567]]]]]]]]").valid = true := by decide
example : (InputChecker.validate "\x7b\"a\": 1\x7d").valid = true := by decide
example : (InputChecker.validate "aaaaaaa!!!!!!!!!!!!!!!!!!!!!!!").valid = false := by decide
example : String.mk (OutputChecker.redactPass "Call me at 5551234567".data) =
    "Call me at [PHONE_REDACTED]" := by decide
example : String.mk (OutputChecker.redactPass "ssn 123-45-6789 ok".data) =
    "ssn [SSN_REDACTED] ok" := by decide
example : String.mk (OutputChecker.redactPass "mail bob.smith@example.com now".data) =
    "mail [EMAIL_REDACTED] now" := by decide
example : String.mk (OutputChecker.redactPass "card 1234567890123456.".data) =
    "card [CREDIT_CARD_REDACTED]." := by decide
example : String.mk (OutputChecker.redactPass "a@b.cc1x@y.zz".data) =
    "a@[EMAIL_REDACTED]" := by decide
example : String.mk (OutputChecker.redactPass "a@b.cc|1234567890".data) =
    "[EMAIL_REDACTED]|[PHONE_REDACTED]" := by decide
example : String.mk (OutputChecker.redactPass "x@y.zz|abc@d.ee".data) =
    "[EMAIL_REDACTED]@d.ee" := by decide
example : String.mk (OutputChecker.redactPass "x@y.zz|a1c@d.ee".data) =
    "[EMAIL_REDACTED][EMAIL_REDACTED]" := by decide
example : String.mk (OutputChecker.redactPass "a@b.ccx@y.zz".data) =
    "[EMAIL_REDACTED]@y.zz" := by decide
example : String.mk (OutputChecker.redactPass "1234567890@y.zz".data) =
    "[PHONE_REDACTED]@y.zz" := by decide
example : String.mk (OutputChecker.redactPass "...@y.zz".data) = "...@y.zz" := by decide
example : String.mk (OutputChecker.redactPass "a@b.cc.12".data) =
    "[EMAIL_REDACTED].12" := by decide
example : String.mk (OutputChecker.redactPass "123-45-6789a@b.cc".data) =
    "[EMAIL_REDACTED]" := by decide
example : String.mk (OutputChecker.redactPass "9.a@b.cc".data) = "[EMAIL_REDACTED]" := by decide
example : String.mk (OutputChecker.redactPass "-x@y.zz".data) = "-[EMAIL_REDACTED]" := by decide
example : String.mk (OutputChecker.redactPass "a@b.c|1x".data) =
    "[EMAIL_REDACTED]1x" := by decide
example : String.mk (OutputChecker.redactPass "_@b.cc".data) = "[EMAIL_REDACTED]" := by decide
example : String.mk (OutputChecker.redactPass "1234567890-123-45-6789".data) =
    "[PHONE_REDACTED]-[SSN_REDACTED]" := by decide
example : String.mk (OutputChecker.redactPass "12345678901234567890".data) =
    "12345678901234567890" := by decide
example : String.mk (OutputChecker.redactPass "123-45-6789123-45-6789".data) =
    "123-45-6789123-45-6789" := by decide
example : String.mk (OutputChecker.redactPass "x@y.zza1234567890".data) =
    "x@y.zza1234567890" := by decide
example : String.mk (OutputChecker.redactPass "a@@b.cc".data) = "a@@b.cc" := by decide
example : String.mk (OutputChecker.redactPass "%@b.cc".data) = "%@b.cc" := by decide
example : String.mk (OutputChecker.redactPass "9%x@b.cc".data) = "[EMAIL_REDACTED]" := by decide

end SanityChecks

namespace OutputChecker

open StrUtil

theorem takeWhile_append_congr {p : Char → Bool} :
    ∀ (l a b : List Char), ((l ++ a).takeWhile p).length < l.length →
      (l ++ b).takeWhile p = (l ++ a).takeWhile p := by
  intro l
  induction l with
  | nil => intro a b h; simp at h
  | cons c l ih =>
      intro a b h
      simp only [List.cons_append, List.takeWhile_cons] at h ⊢
      by_cases hp : p c
      · simp only [hp, if_true] at h ⊢
        simp only [List.length_cons, Nat.add_lt_add_iff_right] at h
        rw [ih a b h]
      · simp [hp]

theorem takeWhile_append_le {p : Char → Bool} :
    ∀ (l a : List Char) (h : Char), a.head? = some h → p h = false →
      ((l ++ a).takeWhile p).length ≤ l.length := by
  intro l
  induction l with
  | nil =>
      intro a h ha hp
      cases a with
      | nil => simp
      | cons x xs =>
          simp only [List.head?_cons, Option.some.injEq] at ha
          subst ha
          simp [List.takeWhile_cons, hp]
  | cons c l ih =>
      intro a h ha hp
      simp only [List.cons_append, List.takeWhile_cons]
      by_cases hc : p c
      · simpa [hc] using ih a h ha hp
      · simp [hc]

theorem le_takeWhile_length {p : Char → Bool} :
    ∀ (l : List Char) (m : Nat),
      (∀ j, j < m → ∃ c, l.get? j = some c ∧ p c = true) →
      m ≤ (l.takeWhile p).length := by
  intro l
  induction l with
  | nil =>
      intro m h
      cases m with
      | zero => simp
      | succ m => obtain ⟨c, hc, _⟩ := h 0 (Nat.succ_pos m); simp at hc
  | cons c l ih =>
      intro m h
      cases m with
      | zero => simp
      | succ m =>
          obtain ⟨c0, hc0, hp0⟩ := h 0 (Nat.succ_pos m)
          simp only [List.get?_cons_zero, Option.some.injEq] at hc0
          subst hc0
          simp only [List.takeWhile_cons, hp0, if_true, List.length_cons,
            Nat.succ_le_succ_iff]
          exact ih m (fun j hj => h (j + 1) (Nat.succ_lt_succ hj))

theorem takeWhile_get? {p : Char → Bool} :
    ∀ (l : List Char) (j : Nat), j < (l.takeWhile p).length →
      ∃ c, l.get? j = some c ∧ p c = true := by
  intro l
  induction l with
  | nil => intro j h; simp at h
  | cons c l ih =>
      intro j h
      simp only [List.takeWhile_cons] at h
      by_cases hc : p c
      · simp only [hc, if_true, List.length_cons] at h
        cases j with
        | zero => exact ⟨c, rfl, hc⟩
        | succ j => exact ih j (Nat.lt_of_succ_lt_succ h)
      · simp [hc] at h

theorem takeWhile_stop {p : Char → Bool} :
    ∀ (l : List Char) (c : Char), l.get? (l.takeWhile p).length = some c → p c = false := by
  intro l
  induction l with
  | nil => intro c h; simp at h
  | cons a l ih =>
      intro c h
      cases ha : p a with
      | true =>
          simp only [List.takeWhile_cons, ha, if_true, List.length_cons,
            List.get?_cons_succ] at h
          exact ih c h
      | false =>
          simp only [List.takeWhile_cons, ha, Bool.false_eq_true, if_false,
            List.length_nil, List.get?_cons_zero, Option.some.injEq] at h
          subst h
          exact ha

theorem head?_take {s : List Char} {k : Nat} (hk : 1 ≤ k) : (s.take k).head? = s.head? := by
  cases s with
  | nil => simp
  | cons c rest =>
      cases k with
      | zero => omega
      | succ k => simp

theorem prevEnd_nil (prev : Option Char) : prevEnd prev [] = prev := rfl

theorem prevEnd_cons (prev : Option Char) (c : Char) (u : List Char) :
    prevEnd prev (c :: u) = prevEnd (some c) u := by
  cases u with
  | nil => rfl
  | cons d u =>
      show prevEnd prev (c :: d :: u) = prevEnd (some c) (d :: u)
      unfold prevEnd
      rw [List.getLast?_cons_cons]
      cases hg : (d :: u).getLast? with
      | some x => rfl
      | none => simp at hg

theorem noMatch_nil_iff {tm : Option Char → List Char → Option Nat} {prev : Option Char} :
    NoMatch tm prev [] ↔ tm prev [] = none := Iff.rfl

theorem noMatch_cons_iff {tm : Option Char → List Char → Option Nat} {prev : Option Char}
    {c : Char} {s : List Char} :
    NoMatch tm prev (c :: s) ↔ tm prev (c :: s) = none ∧ NoMatch tm (some c) s := Iff.rfl

theorem noMatch_append_of {tm : Option Char → List Char → Option Nat} :
    ∀ (u : List Char) (prev : Option Char) (v : List Char),
      SuffixSafe tm prev u v → NoMatch tm (prevEnd prev u) v → NoMatch tm prev (u ++ v) := by
  intro u
  induction u with
  | nil => intro prev v _ hv; simpa [prevEnd_nil] using hv
  | cons c u ih =>
      intro prev v hu hv
      obtain ⟨h1, h2⟩ := hu
      rw [prevEnd_cons] at hv
      exact ⟨h1, ih (some c) v h2 hv⟩

theorem noMatch_drop {tm : Option Char → List Char → Option Nat} :
    ∀ (n : Nat) (prev : Option Char) (s : List Char), NoMatch tm prev s →
      NoMatch tm (prevEnd prev (s.take n)) (s.drop n) := by
  intro n
  induction n with
  | zero => intro prev s h; simpa [prevEnd_nil] using h
  | succ n ih =>
      intro prev s h
      cases s with
      | nil => simpa [prevEnd_nil] using h
      | cons c s =>
          obtain ⟨_, h2⟩ := h
          simpa [List.take_succ_cons, List.drop_succ_cons, prevEnd_cons] using ih (some c) s h2

theorem scanSub_chunks {tm : Option Char → List Char → Option Nat} {repl : List Char}
    (Hlen : ∀ p s n, tm p s = some n → 1 ≤ n ∧ n ≤ s.length) :
    ∀ (fuel : Nat) (prev : Option Char) (s : List Char), s.length ≤ fuel →
      Chunks tm repl prev s (scanSub tm repl fuel prev s) := by
  intro fuel
  induction fuel with
  | zero =>
      intro prev s h
      have : s = [] := List.length_eq_zero.mp (Nat.le_zero.mp h)
      subst this
      exact Chunks.nil prev
  | succ fuel ih =>
      intro prev s h
      cases s with
      | nil => exact Chunks.nil prev
      | cons c rest =>
          cases htm : tm prev (c :: rest) with
          | none =>
              simp only [scanSub, htm]
              exact Chunks.copy prev c rest _ htm
                (ih (some c) rest (by simpa using Nat.le_of_succ_le_succ h))
          | some n =>
              obtain ⟨h1, h2⟩ := Hlen prev (c :: rest) n htm
              simp only [scanSub, htm, h1, if_true]
              refine Chunks.subst prev c rest _ n htm h1 h2 ?_
              refine ih _ _ ?_
              have : ((c :: rest).drop n).length = (c :: rest).length - n := by
                simp [List.length_drop]
              rw [this]
              simp only [List.length_cons] at h h2 ⊢
              omega

theorem scanSub_eq_self {tm : Option Char → List Char → Option Nat} {repl : List Char} :
    ∀ (fuel : Nat) (prev : Option Char) (s : List Char), NoMatch tm prev s →
      scanSub tm repl fuel prev s = s := by
  intro fuel
  induction fuel with
  | zero => intro prev s _; rfl
  | succ fuel ih =>
      intro prev s h
      cases s with
      | nil => rfl
      | cons c rest =>
          obtain ⟨h1, h2⟩ := h
          simp only [scanSub, h1]
          rw [ih (some c) rest h2]

theorem reSub_chunks {tm : Option Char → List Char → Option Nat} {repl : String}
    (Hlen : ∀ p s n, tm p s = some n → 1 ≤ n ∧ n ≤ s.length) (s : List Char) :
    Chunks tm repl.data none s (reSub tm repl s) :=
  scanSub_chunks Hlen s.length none s (le_refl _)

theorem reSub_eq_self {tm : Option Char → List Char → Option Nat} {repl : String}
    {s : List Char} (h : NoMatch tm none s) : reSub tm repl s = s :=
  scanSub_eq_self s.length none s h

theorem windowMatch_eq_some_iff {k : Nat} {shape : List Char → Bool} {prev : Option Char}
    {s : List Char} {n : Nat} :
    windowMatch k shape prev s = some n ↔
      n = k ∧ (s.take k).length = k ∧ shape (s.take k) = true ∧
        boundary prev (s.take k).head? = true ∧
        boundary (s.take k).getLast? ((s.drop k).head?) = true := by
  unfold windowMatch
  split
  · next hc =>
      simp only [Bool.and_eq_true, decide_eq_true_eq] at hc
      constructor
      · intro h
        simp only [Option.some.injEq] at h
        exact ⟨h.symm, hc.1.1.1, hc.1.1.2, hc.1.2, hc.2⟩
      · intro h
        simp [h.1]
  · next hc =>
      constructor
      · intro h; exact absurd h (by simp)
      · intro h
        exfalso
        apply hc
        simp only [Bool.and_eq_true, decide_eq_true_eq]
        exact ⟨⟨⟨h.2.1, h.2.2.1⟩, h.2.2.2.1⟩, h.2.2.2.2⟩

theorem windowMatch_len {k : Nat} {shape : List Char → Bool} (hk : 1 ≤ k) :
    ∀ (p : Option Char) (s : List Char) (n : Nat),
      windowMatch k shape p s = some n → 1 ≤ n ∧ n ≤ s.length := by
  intro p s n h
  obtain ⟨hn, hlen, _, _, _⟩ := windowMatch_eq_some_iff.mp h
  subst hn
  have : (s.take n).length = min n s.length := List.length_take n s
  omega

theorem windowMatch_lead {k : Nat} {shape : List Char → Bool} (hk : 1 ≤ k)
    {p : Option Char} {s : List Char} {n : Nat} (h : windowMatch k shape p s = some n) :
    boundary p s.head? = true := by
  obtain ⟨_, _, _, hb, _⟩ := windowMatch_eq_some_iff.mp h
  rwa [head?_take hk] at hb

theorem windowMatch_trail {k : Nat} {shape : List Char → Bool}
    {p : Option Char} {s : List Char} {n : Nat} (h : windowMatch k shape p s = some n) :
    boundary ((s.take n).getLast?) ((s.drop n).head?) = true := by
  obtain ⟨hn, _, _, _, hb⟩ := windowMatch_eq_some_iff.mp h
  subst hn
  exact hb

theorem windowMatch_nil {k : Nat} {shape : List Char → Bool} (hk : 1 ≤ k)
    (p : Option Char) : windowMatch k shape p [] = none := by
  cases h : windowMatch k shape p [] with
  | none => rfl
  | some n =>
      obtain ⟨_, hlen, _, _, _⟩ := windowMatch_eq_some_iff.mp h
      simp at hlen
      omega

theorem windowMatch_head_fail {k : Nat} {shape : List Char → Bool}
    (hshape : ∀ w, shape w = true → w.all charOK = true) (hk : 1 ≤ k)
    {c : Char} (hc : charOK c = false) (p : Option Char) (x : List Char) :
    windowMatch k shape p (c :: x) = none := by
  cases h : windowMatch k shape p (c :: x) with
  | none => rfl
  | some n =>
      obtain ⟨_, _, hsh, _, _⟩ := windowMatch_eq_some_iff.mp h
      have hall := hshape _ hsh
      rw [List.all_eq_true] at hall
      have hmem : c ∈ (c :: x).take k := by
        cases k with
        | zero => omega
        | succ k => simp
      have := hall c hmem
      rw [hc] at this
      exact absurd this (by simp)

theorem windowMatch_swap {k : Nat} {shape : List Char → Bool} (hk : 1 ≤ k)
    {p1 p2 : Option Char} {s : List Char} {n : Nat}
    (h : windowMatch k shape p1 s = some n) (hb : boundary p2 s.head? = true) :
    windowMatch k shape p2 s = some n := by
  obtain ⟨hn, h1, h2, _, h4⟩ := windowMatch_eq_some_iff.mp h
  subst hn
  exact windowMatch_eq_some_iff.mpr ⟨rfl, h1, h2, by rwa [head?_take hk], h4⟩

theorem prevEnd_of_ne_nil {p : Option Char} {l : List Char} (h : l ≠ []) (d : Char) :
    prevEnd p l = some (l.getLastD d) := by
  cases hg : l.getLast? with
  | some x =>
      show prevEnd p l = _
      unfold prevEnd
      rw [hg, List.getLastD_eq_getLast?, hg]
      rfl
  | none => exact absurd (by simpa using hg) h

theorem take_append_of_le {k : Nat} {l x : List Char} (h : k ≤ l.length) :
    (l ++ x).take k = l.take k := by
  rw [List.take_append_eq_append_take, Nat.sub_eq_zero_of_le h]
  simp

theorem drop_append_of_le {k : Nat} {l x : List Char} (h : k ≤ l.length) :
    (l ++ x).drop k = l.drop k ++ x := by
  rw [List.drop_append_eq_append_drop, Nat.sub_eq_zero_of_le h, List.drop_zero]

theorem windowMatch_segTransfer {k : Nat} {shape : List Char → Bool}
    (hshape : ∀ w, shape w = true → w.all charOK = true) (hk : 1 ≤ k) :
    SegTransfer (windowMatch k shape) := by
  intro prev seg s2 o2 c2 n hs2 ho2 hb h
  obtain ⟨hn, hlen, hsh, hb1, hb2⟩ := windowMatch_eq_some_iff.mp h
  subst hn
  by_cases hks : n ≤ seg.length
  · have htake_o : (seg ++ o2).take n = seg.take n := take_append_of_le hks
    have htake_s : (seg ++ s2).take n = seg.take n := take_append_of_le hks
    rw [htake_o] at hlen hsh hb1 hb2
    have hdrop : boundary (seg.take n).getLast? (((seg ++ s2).drop n).head?) = true := by
      by_cases hlt : n < seg.length
      · have h1 : ((seg ++ o2).drop n).head? = (seg.drop n).head? := by
          rw [drop_append_of_le hks]
          cases hd : seg.drop n with
          | nil =>
              have := congrArg List.length hd
              simp [List.length_drop] at this
              omega
          | cons d t => simp [hd]
        have h2 : ((seg ++ s2).drop n).head? = (seg.drop n).head? := by
          rw [drop_append_of_le hks]
          cases hd : seg.drop n with
          | nil =>
              have := congrArg List.length hd
              simp [List.length_drop] at this
              omega
          | cons d t => simp [hd]
        rw [h2, ← h1]
        exact hb2
      · have hkeq : n = seg.length := by omega
        have hseg_ne : seg ≠ [] := by
          intro he
          rw [he] at hkeq
          simp at hkeq
          omega
        have htakefull : seg.take n = seg := by
          rw [hkeq]; exact List.take_length seg
        have hds : (seg ++ s2).drop n = s2 := by
          rw [hkeq, List.drop_append_eq_append_drop, Nat.sub_self]
          simp [List.drop_length]
        rw [hds, htakefull, hs2]
        have hpe : prevEnd prev seg = seg.getLast? := by
          cases hg : seg.getLast? with
          | some x => show prevEnd prev seg = _; unfold prevEnd; rw [hg]
          | none => exact absurd (by simpa using hg) hseg_ne
        rw [hpe] at hb
        exact hb
    exact ⟨n, windowMatch_eq_some_iff.mpr
      ⟨rfl, by rw [htake_s]; exact hlen, by rw [htake_s]; exact hsh,
       by rw [htake_s]; exact hb1, by rw [htake_s]; exact hdrop⟩⟩
  · exfalso
    push_neg at hks
    have hget : ((seg ++ o2).take n).get? seg.length = some '[' := by
      rw [List.get?_take hks]
      rw [List.get?_append_right (le_refl _)]
      rw [Nat.sub_self]
      cases o2 with
      | nil => simp at ho2
      | cons a t =>
          simp only [List.head?_cons, Option.some.injEq] at ho2
          simp [ho2]
    have hall := hshape _ hsh
    rw [List.all_eq_true] at hall
    have hmem := List.get?_mem hget
    have := hall _ hmem
    have hcharOK : charOK '[' = false := by decide
    rw [hcharOK] at this
    exact absurd this (by simp)

theorem chunks_first_block {tm : Option Char → List Char → Option Nat} {repl : List Char}
    {prev : Option Char} {s o : List Char} (hC : Chunks tm repl prev s o) :
    ∃ seg s2 o2 o3, s = seg ++ s2 ∧ o = seg ++ o2 ∧
      ((s2 = [] ∧ o2 = []) ∨
       (∃ c2 n, s2.head? = some c2 ∧ o2 = repl ++ o3 ∧
         tm (prevEnd prev seg) s2 = some n)) := by
  induction hC with
  | nil prev => exact ⟨[], [], [], [], rfl, rfl, Or.inl ⟨rfl, rfl⟩⟩
  | copy prev c s o htm htail ih =>
      obtain ⟨seg, s2, o2, o3, hs, ho, hdisj⟩ := ih
      refine ⟨c :: seg, s2, o2, o3, by rw [hs]; rfl, by rw [ho]; rfl, ?_⟩
      cases hdisj with
      | inl he => exact Or.inl he
      | inr hr =>
          obtain ⟨c2, n, h1, h2, h3⟩ := hr
          exact Or.inr ⟨c2, n, h1, h2, by rw [prevEnd_cons]; exact h3⟩
  | subst prev c s o n htm h1 h2 htail =>
      exact ⟨[], c :: s, repl ++ o, o, rfl, rfl,
        Or.inr ⟨c, n, rfl, rfl, by rw [prevEnd_nil]; exact htm⟩⟩

theorem tm_transfer_chunks {tmP tmQ : Option Char → List Char → Option Nat}
    {replQ : List Char}
    (HsegP : SegTransfer tmP)
    (HQlead : ∀ p s n, tmQ p s = some n → boundary p s.head? = true)
    (hreplQ : replQ.head? = some '[')
    {prev : Option Char} {s o : List Char}
    (hC : Chunks tmQ replQ prev s o) {n : Nat} (h : tmP prev o = some n) :
    ∃ m, tmP prev s = some m := by
  obtain ⟨seg, s2, o2, o3, hs, ho, hdisj⟩ := chunks_first_block hC
  subst hs
  subst ho
  cases hdisj with
  | inl he =>
      obtain ⟨hs2, ho2⟩ := he
      subst hs2
      subst ho2
      exact ⟨n, h⟩
  | inr hr =>
      obtain ⟨c2, nq, hhead, ho2, htmq⟩ := hr
      have hb := HQlead _ _ _ htmq
      rw [hhead] at hb
      have ho2h : o2.head? = some '[' := by
        rw [ho2]
        cases replQ with
        | nil => simp at hreplQ
        | cons a t =>
            simp only [List.head?_cons, Option.some.injEq] at hreplQ
            simp [hreplQ]
      exact HsegP prev seg s2 o2 c2 n hhead ho2h hb h

theorem noMatch_entry_swap {tmP tmQ : Option Char → List Char → Option Nat}
    {replQ : List Char}
    (HnilP : ∀ p, tmP p [] = none)
    (HbrP : ∀ p x, tmP p ('[' :: x) = none)
    (HswapP : ∀ p1 p2 s n, tmP p1 s = some n → boundary p2 s.head? = true →
      tmP p2 s = some n)
    (hreplQ : replQ.head? = some '[')
    {a : Char} {s2 o : List Char}
    (hC : Chunks tmQ replQ (some a) s2 o)
    (htrail : boundary (some a) s2.head? = true)
    (hnm : NoMatch tmP (some a) o) (p2 : Option Char) : NoMatch tmP p2 o := by
  cases hC with
  | nil => exact HnilP p2
  | copy _ c s o2 htm htail =>
      obtain ⟨h1, h2⟩ := hnm
      refine ⟨?_, h2⟩
      cases hp : tmP p2 (c :: o2) with
      | none => exact hp
      | some n =>
          have hb : boundary (some a) (c :: o2).head? = true := by
            simpa using htrail
          have := HswapP p2 (some a) (c :: o2) n hp hb
          rw [h1] at this
          exact absurd this (by simp)
  | subst _ c s o2 n htm hn1 hn2 htail =>
      cases replQ with
      | nil => simp at hreplQ
      | cons r rt =>
          simp only [List.head?_cons, Option.some.injEq] at hreplQ
          subst hreplQ
          obtain ⟨_, h2⟩ := hnm
          exact ⟨HbrP p2 (rt ++ o2), h2⟩

theorem noMatch_chunks_pres {tmP tmQ : Option Char → List Char → Option Nat}
    {replQ : List Char}
    (HnilP : ∀ p, tmP p [] = none)
    (HbrP : ∀ p x, tmP p ('[' :: x) = none)
    (HswapP : ∀ p1 p2 s n, tmP p1 s = some n → boundary p2 s.head? = true →
      tmP p2 s = some n)
    (HsegP : SegTransfer tmP)
    (HQlead : ∀ p s n, tmQ p s = some n → boundary p s.head? = true)
    (HQtrail : ∀ p s n, tmQ p s = some n →
      boundary ((s.take n).getLast?) ((s.drop n).head?) = true)
    (HtokP : TokSafe tmP replQ)
    (hreplQ : replQ.head? = some '[') :
    ∀ {prev : Option Char} {s o : List Char}, Chunks tmQ replQ prev s o →
      NoMatch tmP prev s → NoMatch tmP prev o := by
  intro prev s o hC
  induction hC with
  | nil prev => intro h; exact h
  | copy prev c s o htm htail ih =>
      intro hnm
      obtain ⟨hh, ht⟩ := hnm
      refine ⟨?_, ih ht⟩
      cases hp : tmP prev (c :: o) with
      | none => exact hp
      | some n =>
          obtain ⟨m, hm⟩ := tm_transfer_chunks HsegP HQlead hreplQ
            (Chunks.copy prev c s o htm htail) hp
          rw [hh] at hm
          exact absurd hm (by simp)
  | subst prev c s o n htm hn1 hn2 htail ih =>
      intro hnm
      have hlast : prevEnd prev ((c :: s).take n) = some (((c :: s).take n).getLastD c) := by
        apply prevEnd_of_ne_nil
        intro he
        have := congrArg List.length he
        simp [List.length_take] at this
        omega
      have hdropnm : NoMatch tmP (some (((c :: s).take n).getLastD c)) ((c :: s).drop n) := by
        have := noMatch_drop n prev (c :: s) hnm
        rwa [hlast] at this
      have htail_nm := ih hdropnm
      have htrail : boundary (some (((c :: s).take n).getLastD c))
          (((c :: s).drop n).head?) = true := by
        have := HQtrail _ _ _ htm
        rwa [show ((c :: s).take n).getLast? = some (((c :: s).take n).getLastD c) from by
          rw [List.getLastD_eq_getLast?]
          cases hg : ((c :: s).take n).getLast? with
          | some x => rfl
          | none =>
              exfalso
              have hne : (c :: s).take n ≠ [] := by
                intro he
                have := congrArg List.length he
                simp [List.length_take] at this
                omega
              exact hne (by simpa using hg)] at this
      have hswapped := noMatch_entry_swap HnilP HbrP HswapP hreplQ htail htrail htail_nm
        (prevEnd prev replQ)
      exact noMatch_append_of replQ prev o (HtokP prev o) hswapped

theorem noMatch_chunks_self {tm : Option Char → List Char → Option Nat}
    {repl : List Char}
    (Hnil : ∀ p, tm p [] = none)
    (Hbr : ∀ p x, tm p ('[' :: x) = none)
    (Hswap : ∀ p1 p2 s n, tm p1 s = some n → boundary p2 s.head? = true →
      tm p2 s = some n)
    (Hseg : SegTransfer tm)
    (Hlead : ∀ p s n, tm p s = some n → boundary p s.head? = true)
    (Htrail : ∀ p s n, tm p s = some n →
      boundary ((s.take n).getLast?) ((s.drop n).head?) = true)
    (Htok : TokSafe tm repl)
    (hrepl : repl.head? = some '[') :
    ∀ {prev : Option Char} {s o : List Char}, Chunks tm repl prev s o →
      NoMatch tm prev o := by
  intro prev s o hC
  induction hC with
  | nil prev => exact Hnil prev
  | copy prev c s o htm htail ih =>
      refine ⟨?_, ih⟩
      cases hp : tm prev (c :: o) with
      | none => exact hp
      | some n =>
          obtain ⟨m, hm⟩ := tm_transfer_chunks Hseg Hlead hrepl
            (Chunks.copy prev c s o htm htail) hp
          rw [htm] at hm
          exact absurd hm (by simp)
  | subst prev c s o n htm hn1 hn2 htail ih =>
      have htrail : boundary (some (((c :: s).take n).getLastD c))
          (((c :: s).drop n).head?) = true := by
        have := Htrail _ _ _ htm
        rwa [show ((c :: s).take n).getLast? = some (((c :: s).take n).getLastD c) from by
          rw [List.getLastD_eq_getLast?]
          cases hg : ((c :: s).take n).getLast? with
          | some x => rfl
          | none =>
              exfalso
              have hne : (c :: s).take n ≠ [] := by
                intro he
                have := congrArg List.length he
                simp [List.length_take] at this
                omega
              exact hne (by simpa using hg)] at this
      have hswapped := noMatch_entry_swap Hnil Hbr Hswap hrepl htail htrail ih
        (prevEnd prev repl)
      exact noMatch_append_of repl prev o (Htok prev o) hswapped

theorem tldGo_some_elim {after : List Char} :
    ∀ (start L : Nat), tldGo after start = some L →
      2 ≤ L ∧ L ≤ start ∧
        boundary ((after.take L).getLast?) ((after.drop L).head?) = true := by
  intro start
  induction start with
  | zero => intro L h; simp [tldGo] at h
  | succ l ih =>
      intro L h
      unfold tldGo at h
      by_cases h2 : l + 1 < 2
      · rw [if_pos h2] at h; exact absurd h (by simp)
      · rw [if_neg h2] at h
        by_cases hb : boundary ((after.take (l + 1)).getLast?)
            ((after.drop (l + 1)).head?) = true
        · rw [if_pos hb] at h
          simp only [Option.some.injEq] at h
          subst h
          exact ⟨by omega, le_refl _, hb⟩
        · rw [if_neg hb] at h
          obtain ⟨ha, hc, hd⟩ := ih L h
          exact ⟨ha, Nat.le_succ_of_le hc, hd⟩

theorem tldGo_isSome_of {after : List Char} :
    ∀ (start L : Nat), 2 ≤ L → L ≤ start →
      boundary ((after.take L).getLast?) ((after.drop L).head?) = true →
      (tldGo after start).isSome = true := by
  intro start
  induction start with
  | zero => intro L h2 hle _; omega
  | succ l ih =>
      intro L h2 hle hb
      unfold tldGo
      rw [if_neg (by omega)]
      by_cases hbs : boundary ((after.take (l + 1)).getLast?)
          ((after.drop (l + 1)).head?) = true
      · rw [if_pos hbs]; rfl
      · rw [if_neg hbs]
        have hlt : L ≤ l := by
          rcases Nat.lt_or_ge L (l + 1) with hc | hc
          · omega
          · exfalso; apply hbs; have : L = l + 1 := by omega
            rw [← this]; exact hb
        exact ih L h2 hlt hb

theorem tldTry_some_elim {after : List Char} {L : Nat} (h : tldTry after = some L) :
    2 ≤ L ∧ L ≤ (after.takeWhile tldClass).length ∧
      boundary ((after.take L).getLast?) ((after.drop L).head?) = true := by
  unfold tldTry at h
  obtain ⟨h1, h2, h3⟩ := tldGo_some_elim _ L h
  exact ⟨h1, h2, h3⟩

theorem tldTry_isSome_of {after : List Char} {L : Nat} (h2 : 2 ≤ L)
    (hle : L ≤ (after.takeWhile tldClass).length)
    (hb : boundary ((after.take L).getLast?) ((after.drop L).head?) = true) :
    (tldTry after).isSome = true :=
  tldGo_isSome_of _ L h2 hle hb

theorem domainGo_some_elim {rest : List Char} :
    ∀ (start r : Nat), domainGo rest start = some r →
      ∃ q L, 1 ≤ q ∧ q ≤ start ∧ rest.get? q = some '.' ∧
        tldTry (rest.drop (q + 1)) = some L ∧ r = q + 1 + L := by
  intro start
  induction start with
  | zero => intro r h; simp [domainGo] at h
  | succ p ih =>
      intro r h
      unfold domainGo at h
      by_cases hdot : rest.get? (p + 1) = some '.'
      · rw [if_pos hdot] at h
        cases htl : tldTry (rest.drop (p + 2)) with
        | some t =>
            rw [htl] at h
            simp only [Option.map_some'] at h
            simp only [Option.some.injEq] at h
            exact ⟨p + 1, t, by omega, le_refl _, hdot, by
              rw [show p + 1 + 1 = p + 2 from rfl]; exact htl, by omega⟩
        | none =>
            rw [htl] at h
            simp only [Option.map_none'] at h
            obtain ⟨q, L, h1, h2, h3, h4, h5⟩ := ih r h
            exact ⟨q, L, h1, Nat.le_succ_of_le h2, h3, h4, h5⟩
      · rw [if_neg hdot] at h
        simp only [] at h
        obtain ⟨q, L, h1, h2, h3, h4, h5⟩ := ih r h
        exact ⟨q, L, h1, Nat.le_succ_of_le h2, h3, h4, h5⟩

theorem domainGo_isSome_of {rest : List Char} :
    ∀ (start q : Nat), 1 ≤ q → q ≤ start → rest.get? q = some '.' →
      (tldTry (rest.drop (q + 1))).isSome = true →
      (domainGo rest start).isSome = true := by
  intro start
  induction start with
  | zero => intro q h1 h2 _ _; omega
  | succ p ih =>
      intro q h1 h2 hdot htl
      unfold domainGo
      by_cases hq : q = p + 1
      · have hdot2 : rest.get? (p + 1) = some '.' := hq ▸ hdot
        rw [if_pos hdot2]
        have htl2 : (tldTry (rest.drop (p + 2))).isSome = true := by
          rw [show p + 2 = q + 1 by omega]
          exact htl
        cases htl3 : tldTry (rest.drop (p + 2)) with
        | some t => simp
        | none => rw [htl3] at htl2; simp at htl2
      · have hqle : q ≤ p := by omega
        by_cases hdot2 : rest.get? (p + 1) = some '.'
        · rw [if_pos hdot2]
          cases htl3 : tldTry (rest.drop (p + 2)) with
          | some t => simp
          | none =>
              simp only [Option.map_none']
              exact ih q h1 hqle hdot htl
        · rw [if_neg hdot2]
          exact ih q h1 hqle hdot htl

theorem domainMatch_some_elim {rest : List Char} {m : Nat}
    (h : domainMatch rest = some m) :
    ∃ q L, 1 ≤ q ∧ q + 1 ≤ (rest.takeWhile domainClass).length ∧
      rest.get? q = some '.' ∧ tldTry (rest.drop (q + 1)) = some L ∧ m = q + 1 + L := by
  unfold domainMatch at h
  by_cases hd : (rest.takeWhile domainClass).length = 0
  · rw [if_pos hd] at h; exact absurd h (by simp)
  · rw [if_neg hd] at h
    obtain ⟨q, L, h1, h2, h3, h4, h5⟩ := domainGo_some_elim _ m h
    exact ⟨q, L, h1, by omega, h3, h4, h5⟩

theorem domainMatch_isSome_of {rest : List Char} {q : Nat} (h1 : 1 ≤ q)
    (h2 : q + 1 ≤ (rest.takeWhile domainClass).length)
    (hdot : rest.get? q = some '.')
    (htl : (tldTry (rest.drop (q + 1))).isSome = true) :
    (domainMatch rest).isSome = true := by
  unfold domainMatch
  rw [if_neg (by omega)]
  exact domainGo_isSome_of _ q h1 (by omega) hdot htl

theorem emailMatch_some_elim {prev : Option Char} {s : List Char} {n : Nat}
    (h : emailMatch prev s = some n) :
    (s.takeWhile localClass).isEmpty = false ∧
      boundary prev (s.takeWhile localClass).head? = true ∧
      ∃ rest m, s.drop (s.takeWhile localClass).length = '@' :: rest ∧
        domainMatch rest = some m ∧ n = (s.takeWhile localClass).length + 1 + m := by
  unfold emailMatch at h
  by_cases he : (s.takeWhile localClass).isEmpty
  · rw [if_pos he] at h; exact absurd h (by simp)
  · rw [if_neg he] at h
    by_cases hb : boundary prev (s.takeWhile localClass).head? = false
    · rw [if_pos hb] at h; exact absurd h (by simp)
    · rw [if_neg hb] at h
      refine ⟨by simpa using he, by simpa using hb, ?_⟩
      cases hdrop : s.drop (s.takeWhile localClass).length with
      | nil => rw [hdrop] at h; exact absurd h (by simp)
      | cons a rest =>
          rw [hdrop] at h
          have h2 : (if a = '@' then
              (domainMatch rest).map (fun m => (s.takeWhile localClass).length + 1 + m)
            else none) = some n := h
          by_cases ha : a = '@'
          · subst ha
            rw [if_pos rfl] at h2
            cases hdm : domainMatch rest with
            | some m =>
                rw [hdm] at h2
                simp only [Option.map_some', Option.some.injEq] at h2
                exact ⟨rest, m, rfl, hdm, h2.symm⟩
            | none => rw [hdm] at h2; exact absurd h2 (by simp)
          · rw [if_neg ha] at h2
            exact absurd h2 (by simp)

theorem emailMatch_some_intro {prev : Option Char} {s rest : List Char} {m : Nat}
    (he : (s.takeWhile localClass).isEmpty = false)
    (hb : boundary prev (s.takeWhile localClass).head? = true)
    (hdrop : s.drop (s.takeWhile localClass).length = '@' :: rest)
    (hdm : domainMatch rest = some m) :
    emailMatch prev s = some ((s.takeWhile localClass).length + 1 + m) := by
  unfold emailMatch
  rw [if_neg (by simp [he]), if_neg (by simp [hb]), hdrop]
  show (if ('@' : Char) = '@' then
      (domainMatch rest).map (fun m => (s.takeWhile localClass).length + 1 + m)
    else none) = _
  rw [if_pos rfl, hdm]
  rfl

theorem takeWhile_head?_eq {p : Char → Bool} {s : List Char}
    (h : (s.takeWhile p).isEmpty = false) : (s.takeWhile p).head? = s.head? := by
  cases s with
  | nil => simp at h
  | cons c t =>
      cases hc : p c with
      | true => simp [List.takeWhile_cons, hc]
      | false => rw [List.takeWhile_cons, hc] at h; simp at h

theorem getLast?_cons_of_ne_nil {c : Char} {u : List Char} (h : u ≠ []) :
    (c :: u).getLast? = u.getLast? := by
  cases u with
  | nil => exact absurd rfl h
  | cons d t => exact List.getLast?_cons_cons

theorem tw_len_le (p : Char → Bool) (l : List Char) : (l.takeWhile p).length ≤ l.length := by
  induction l with
  | nil => simp
  | cons c t ih =>
      rw [List.takeWhile_cons]
      cases hc : p c with
      | true => simpa using ih
      | false => simp

theorem getLast?_append_ne_nil {l2 : List Char} (h : l2 ≠ []) :
    ∀ l1 : List Char, (l1 ++ l2).getLast? = l2.getLast? := by
  intro l1
  induction l1 with
  | nil => rfl
  | cons c t ih =>
      show (c :: (t ++ l2)).getLast? = l2.getLast?
      rw [getLast?_cons_of_ne_nil, ih]
      intro he
      rcases List.append_eq_nil.mp he with ⟨_, h2⟩
      exact h h2

theorem getLast?_drop_ne_nil : ∀ (n : Nat) (l : List Char), l.drop n ≠ [] →
    (l.drop n).getLast? = l.getLast? := by
  intro n
  induction n with
  | zero => intro l _; rfl
  | succ n ih =>
      intro l h
      cases l with
      | nil => simp at h
      | cons c t =>
          rw [List.drop_succ_cons] at h ⊢
          rw [ih t h, getLast?_cons_of_ne_nil]
          intro he
          rw [he] at h
          simp at h

theorem emailMatch_nil (p : Option Char) : emailMatch p [] = none := rfl

theorem emailMatch_head_fail {c : Char} (hc : localClass c = false)
    (p : Option Char) (x : List Char) : emailMatch p (c :: x) = none := by
  unfold emailMatch
  rw [if_pos]
  rw [List.takeWhile_cons, hc]
  rfl

theorem emailMatch_lead {p : Option Char} {s : List Char} {n : Nat}
    (h : emailMatch p s = some n) : boundary p s.head? = true := by
  obtain ⟨he, hb, _⟩ := emailMatch_some_elim h
  rwa [takeWhile_head?_eq he] at hb

theorem emailMatch_len : ∀ (p : Option Char) (s : List Char) (n : Nat),
    emailMatch p s = some n → 1 ≤ n ∧ n ≤ s.length := by
  intro p s n h
  obtain ⟨he, hb, rest, m, hdrop, hdm, hn⟩ := emailMatch_some_elim h
  have hslen : s.length = (s.takeWhile localClass).length + 1 + rest.length := by
    have h1 := congrArg List.length hdrop
    simp only [List.length_drop, List.length_cons] at h1
    have h2 : (s.takeWhile localClass).length ≤ s.length := tw_len_le _ _
    omega
  obtain ⟨q, L, hq1, hq2, hdot, htl, hm⟩ := domainMatch_some_elim hdm
  obtain ⟨hL2, hLle, hLb⟩ := tldTry_some_elim htl
  have h1 : q + 1 ≤ rest.length := by
    have := tw_len_le domainClass rest
    omega
  have h2 : L ≤ rest.length - (q + 1) := by
    have ha := tw_len_le tldClass (rest.drop (q + 1))
    rw [List.length_drop] at ha
    omega
  omega

theorem emailMatch_trail {p : Option Char} {s : List Char} {n : Nat}
    (h : emailMatch p s = some n) :
    boundary ((s.take n).getLast?) ((s.drop n).head?) = true := by
  obtain ⟨he, hb, rest, m, hdrop, hdm, hn⟩ := emailMatch_some_elim h
  obtain ⟨q, L, hq1, hq2, hdot, htl, hm⟩ := domainMatch_some_elim hdm
  obtain ⟨hL2, hLle, hLb⟩ := tldTry_some_elim htl
  have hrest : s.drop ((s.takeWhile localClass).length + 1) = rest := by
    have h0 : (s.drop (s.takeWhile localClass).length).drop 1 = rest := by
      rw [hdrop]
      rfl
    rw [List.drop_drop] at h0
    exact h0
  have hq1' : q + 1 ≤ rest.length := by
    have := tw_len_le domainClass rest
    omega
  have hB : s.drop ((s.takeWhile localClass).length + 1 + (q + 1)) = rest.drop (q + 1) := by
    have h0 : (s.drop ((s.takeWhile localClass).length + 1)).drop (q + 1) =
        rest.drop (q + 1) := by rw [hrest]
    rw [List.drop_drop] at h0
    exact h0
  have hBL : s.drop n = (rest.drop (q + 1)).drop L := by
    have h0 : (s.drop ((s.takeWhile localClass).length + 1 + (q + 1))).drop L =
        (rest.drop (q + 1)).drop L := by rw [hB]
    rw [List.drop_drop] at h0
    rw [show n = (s.takeWhile localClass).length + 1 + (q + 1) + L by omega]
    exact h0
  have hBlen : L ≤ (rest.drop (q + 1)).length := by
    have := tw_len_le tldClass (rest.drop (q + 1))
    omega
  have htake : s.take n = s.take ((s.takeWhile localClass).length + 1 + (q + 1)) ++
      (rest.drop (q + 1)).take L := by
    rw [show n = ((s.takeWhile localClass).length + 1 + (q + 1)) + L by omega]
    rw [List.take_add, hB]
  have htne : (rest.drop (q + 1)).take L ≠ [] := by
    intro hc
    have h1 := congrArg List.length hc
    rw [List.length_take] at h1
    simp only [List.length_nil] at h1
    omega
  rw [htake, getLast?_append_ne_nil htne, hBL]
  exact hLb

theorem emailMatch_swap {p1 p2 : Option Char} {s : List Char} {n : Nat}
    (h : emailMatch p1 s = some n) (hb : boundary p2 s.head? = true) :
    emailMatch p2 s = some n := by
  obtain ⟨he, _, rest, m, hdrop, hdm, hn⟩ := emailMatch_some_elim h
  rw [hn]
  exact emailMatch_some_intro he (by rwa [takeWhile_head?_eq he]) hdrop hdm

theorem drop_cons_of_get? : ∀ (n : Nat) (l : List Char) (a : Char),
    l.get? n = some a → l.drop n = a :: l.drop (n + 1) := by
  intro n
  induction n with
  | zero =>
      intro l a h
      cases l with
      | nil => simp at h
      | cons c t =>
          simp only [List.get?_cons_zero, Option.some.injEq] at h
          subst h
          rfl
  | succ n ih =>
      intro l a h
      cases l with
      | nil => simp at h
      | cons c t =>
          rw [List.get?_cons_succ] at h
          rw [List.drop_succ_cons, ih t a h]
          rfl

theorem prevEnd_eq_getLast? {p : Option Char} {l : List Char} (h : l ≠ []) :
    prevEnd p l = l.getLast? := by
  cases hg : l.getLast? with
  | some x =>
      show prevEnd p l = _
      unfold prevEnd
      rw [hg]
  | none => exact absurd (by simpa using hg) h

theorem head?_eq_get?_zero (l : List Char) : l.head? = l.get? 0 := by
  cases l <;> rfl

theorem drop_head?_of_lt {l x : List Char} {n : Nat} (h : n < l.length) :
    ((l ++ x).drop n).head? = (l.drop n).head? := by
  rw [drop_append_of_le (Nat.le_of_lt h)]
  cases hd : l.drop n with
  | nil =>
      have := congrArg List.length hd
      simp [List.length_drop] at this
      omega
  | cons d t => simp [hd]

theorem domainMatch_transfer {A s2 o2 : List Char} {c2 : Char} {m : Nat}
    (hs2 : s2.head? = some c2) (ho2 : o2.head? = some '[')
    (hb : boundary A.getLast? (some c2) = true)
    (h : domainMatch (A ++ o2) = some m) :
    (domainMatch (A ++ s2)).isSome = true := by
  obtain ⟨q, L, hq1, hq2, hdot_o, htl_o, hm⟩ := domainMatch_some_elim h
  have hdco : domainClass '[' = false := by decide
  have htco : tldClass '[' = false := by decide
  have hd_le : ((A ++ o2).takeWhile domainClass).length ≤ A.length :=
    takeWhile_append_le A o2 '[' ho2 hdco
  have hqA : q + 1 ≤ A.length := le_trans hq2 hd_le
  have hdot_A : A.get? q = some '.' := by
    rw [List.get?_append (by omega)] at hdot_o
    exact hdot_o
  have hdot_s : (A ++ s2).get? q = some '.' := by
    rw [List.get?_append (by omega)]
    exact hdot_A
  have hd_s : q + 1 ≤ ((A ++ s2).takeWhile domainClass).length := by
    apply le_takeWhile_length
    intro j hj
    obtain ⟨c, hc, hpc⟩ := takeWhile_get? (p := domainClass) (A ++ o2) j (by omega)
    rw [List.get?_append (by omega)] at hc
    exact ⟨c, by rw [List.get?_append (by omega)]; exact hc, hpc⟩
  -- the top-level-domain part at dot position q
  have hBo : (A ++ o2).drop (q + 1) = A.drop (q + 1) ++ o2 := drop_append_of_le hqA
  obtain ⟨hL2, hLle, hLb⟩ := tldTry_some_elim htl_o
  rw [hBo] at hLle hLb
  have ht_le : ((A.drop (q + 1) ++ o2).takeWhile tldClass).length ≤ (A.drop (q + 1)).length :=
    takeWhile_append_le _ o2 '[' ho2 htco
  have hLA : L ≤ (A.drop (q + 1)).length := le_trans hLle ht_le
  have htake_eq_o : (A.drop (q + 1) ++ o2).take L = (A.drop (q + 1)).take L :=
    take_append_of_le hLA
  have htake_eq_s : (A.drop (q + 1) ++ s2).take L = (A.drop (q + 1)).take L :=
    take_append_of_le hLA
  have hLA' : L ≤ A.length - (q + 1) := by
    rw [← List.length_drop]
    exact hLA
  have hA_ne : A.drop (q + 1) ≠ [] := by
    intro he
    have h0 : (A.drop (q + 1)).length = 0 := by rw [he]; rfl
    rw [List.length_drop] at h0
    omega
  have hlastA : (A.drop (q + 1)).getLast? = A.getLast? :=
    getLast?_drop_ne_nil (q + 1) A hA_ne
  have hLb_s : boundary (((A.drop (q + 1) ++ s2).take L).getLast?)
      (((A.drop (q + 1) ++ s2).drop L).head?) = true := by
    rw [htake_eq_s]
    by_cases hLlt : L < (A.drop (q + 1)).length
    · rw [drop_head?_of_lt hLlt]
      rw [htake_eq_o, drop_head?_of_lt hLlt] at hLb
      exact hLb
    · have hLeq : L = (A.drop (q + 1)).length := by omega
      have hfull : (A.drop (q + 1)).take L = A.drop (q + 1) := by
        rw [hLeq]
        exact List.take_length _
      have hds : (A.drop (q + 1) ++ s2).drop L = s2 := by
        rw [hLeq, List.drop_append_eq_append_drop, Nat.sub_self, List.drop_length]
        rfl
      rw [hds, hfull, hlastA, hs2]
      exact hb
  have ht_s : L ≤ ((A.drop (q + 1) ++ s2).takeWhile tldClass).length := by
    apply le_takeWhile_length
    intro j hj
    obtain ⟨c, hc, hpc⟩ := takeWhile_get? (p := tldClass) (A.drop (q + 1) ++ o2) j (by omega)
    rw [List.get?_append (by omega)] at hc
    exact ⟨c, by rw [List.get?_append (by omega)]; exact hc, hpc⟩
  have htl_s : (tldTry ((A ++ s2).drop (q + 1))).isSome = true := by
    rw [drop_append_of_le hqA]
    exact tldTry_isSome_of hL2 ht_s hLb_s
  exact domainMatch_isSome_of hq1 hd_s hdot_s htl_s

theorem emailMatch_segTransfer : SegTransfer emailMatch := by
  intro prev seg s2 o2 c2 n hs2 ho2 hbf h
  obtain ⟨he_o, hb_o, rest_o, m_o, hdrop_o, hdm_o, hn⟩ := emailMatch_some_elim h
  -- the '@' sits at the end of the local-part run, strictly inside `seg`
  have hat : (seg ++ o2).get? ((seg ++ o2).takeWhile localClass).length = some '@' := by
    have h0 : ((seg ++ o2).drop ((seg ++ o2).takeWhile localClass).length).get? 0
        = some '@' := by
      rw [hdrop_o]; rfl
    rw [List.get?_drop] at h0
    simpa using h0
  have hbr : (seg ++ o2).get? seg.length = o2.get? 0 := by
    rw [List.get?_append_right (le_refl seg.length), Nat.sub_self]
  have ho2z : o2.get? 0 = some '[' := by rw [← head?_eq_get?_zero]; exact ho2
  have hlt : ((seg ++ o2).takeWhile localClass).length < seg.length := by
    rcases Nat.lt_trichotomy ((seg ++ o2).takeWhile localClass).length seg.length with
      h1 | h1 | h1
    · exact h1
    · exfalso
      rw [← h1] at hbr
      rw [hat, ho2z] at hbr
      exact absurd hbr (by decide)
    · exfalso
      obtain ⟨c, hc, hpc⟩ := takeWhile_get? (p := localClass) (seg ++ o2) seg.length h1
      rw [hbr, ho2z] at hc
      simp only [Option.some.injEq] at hc
      subst hc
      exact absurd hpc (by decide)
  have htw : (seg ++ s2).takeWhile localClass = (seg ++ o2).takeWhile localClass :=
    takeWhile_append_congr seg o2 s2 hlt
  have hLL : ((seg ++ s2).takeWhile localClass).length
      = ((seg ++ o2).takeWhile localClass).length := by rw [htw]
  have hat_seg : seg.get? ((seg ++ o2).takeWhile localClass).length = some '@' := by
    rw [List.get?_append hlt] at hat
    exact hat
  have hsegdrop : seg.drop ((seg ++ o2).takeWhile localClass).length =
      '@' :: seg.drop (((seg ++ o2).takeWhile localClass).length + 1) :=
    drop_cons_of_get? _ seg '@' hat_seg
  set A := seg.drop (((seg ++ o2).takeWhile localClass).length + 1) with hA
  have hdrop_o2 : (seg ++ o2).drop ((seg ++ o2).takeWhile localClass).length =
      '@' :: (A ++ o2) := by
    rw [drop_append_of_le (Nat.le_of_lt hlt), hsegdrop]
    rfl
  rw [hdrop_o] at hdrop_o2
  simp only [List.cons.injEq, true_and] at hdrop_o2
  subst hdrop_o2
  have hdrop_s : (seg ++ s2).drop ((seg ++ s2).takeWhile localClass).length =
      '@' :: (A ++ s2) := by
    rw [hLL, drop_append_of_le (Nat.le_of_lt hlt), hsegdrop]
    rfl
  -- the domain part consumes at least two characters of `A`, so `A` is nonempty
  obtain ⟨q, L, hq1, hq2, -, -, -⟩ := domainMatch_some_elim hdm_o
  have hd_le : ((A ++ o2).takeWhile domainClass).length ≤ A.length :=
    takeWhile_append_le A o2 '[' ho2 (by decide)
  have hqA : q + 1 ≤ A.length := le_trans hq2 hd_le
  have hA_ne : A ≠ [] := by
    intro he
    rw [he] at hqA
    simp at hqA
  have hseg_ne : seg ≠ [] := by
    intro he
    rw [he] at hlt
    simp at hlt
  have hlastA : A.getLast? = seg.getLast? := getLast?_drop_ne_nil _ seg hA_ne
  have hpe : prevEnd prev seg = seg.getLast? := prevEnd_eq_getLast? hseg_ne
  have hbA : boundary A.getLast? (some c2) = true := by
    rw [hlastA, ← hpe]
    exact hbf
  obtain ⟨m_s, hm_s⟩ :=
    Option.isSome_iff_exists.mp (domainMatch_transfer hs2 ho2 hbA hdm_o)
  exact ⟨_, emailMatch_some_intro (by rw [htw]; exact he_o)
    (by rw [htw]; exact hb_o) hdrop_s hm_s⟩

theorem all_get? {p : Char → Bool} {l : List Char} (h : l.all p = true) {j : Nat}
    {x : Char} (hx : l.get? j = some x) : p x = true :=
  List.all_eq_true.mp h x (List.get?_mem hx)

theorem ssnShape_all : ∀ w, ssnShape w = true → w.all charOK = true := by
  intro w h
  unfold ssnShape at h
  simp only [Bool.and_eq_true, decide_eq_true_eq] at h
  obtain ⟨⟨⟨⟨h1, h2⟩, h3⟩, h4⟩, h5⟩ := h
  rw [List.all_eq_true]
  intro x hx
  obtain ⟨j, hj⟩ := List.mem_iff_get?.mp hx
  by_cases hc1 : j < 3
  · have hg : (w.take 3).get? j = some x := by rw [List.get?_take hc1]; exact hj
    have hd := all_get? h1 hg
    unfold charOK
    rw [hd]
    rfl
  by_cases hc2 : j = 3
  · subst hc2
    rw [h2] at hj
    simp only [Option.some.injEq] at hj
    subst hj
    decide
  by_cases hc3 : j < 6
  · have hg : (w.drop 4).get? (j - 4) = some x := by
      rw [List.get?_drop, show 4 + (j - 4) = j from by omega]
      exact hj
    have hg2 : ((w.drop 4).take 2).get? (j - 4) = some x := by
      rw [List.get?_take (by omega)]
      exact hg
    have hd := all_get? h3 hg2
    unfold charOK
    rw [hd]
    rfl
  by_cases hc4 : j = 6
  · subst hc4
    rw [h4] at hj
    simp only [Option.some.injEq] at hj
    subst hj
    decide
  · have hg : (w.drop 7).get? (j - 7) = some x := by
      rw [List.get?_drop, show 7 + (j - 7) = j from by omega]
      exact hj
    have hd := all_get? h5 hg
    unfold charOK
    rw [hd]
    rfl

theorem digitAll_charOK : ∀ w : List Char, w.all isDigitChar = true →
    w.all charOK = true := by
  intro w h
  rw [List.all_eq_true] at h ⊢
  intro x hx
  have hd := h x hx
  unfold charOK
  rw [hd]
  rfl

theorem suffixSafe_window {k : Nat} {shape : List Char → Bool}
    (hshape : ∀ w, shape w = true → w.all charOK = true) (hk : 1 ≤ k) :
    ∀ (repl : List Char), (∀ c ∈ repl, charOK c = false) →
      ∀ (prev : Option Char) (rest : List Char),
        SuffixSafe (windowMatch k shape) prev repl rest := by
  intro repl
  induction repl with
  | nil => intro _ prev rest; trivial
  | cons c w ih =>
      intro hall prev rest
      exact ⟨windowMatch_head_fail hshape hk (hall c (List.mem_cons_self c w)) prev _,
        ih (fun x hx => hall x (List.mem_cons_of_mem c hx)) (some c) rest⟩

theorem tokSafe_window {k : Nat} {shape : List Char → Bool}
    (hshape : ∀ w, shape w = true → w.all charOK = true) (hk : 1 ≤ k)
    (repl : List Char) (hall : ∀ c ∈ repl, charOK c = false) :
    TokSafe (windowMatch k shape) repl :=
  fun prev rest => suffixSafe_window hshape hk repl hall prev rest

theorem takeWhile_append_all {p : Char → Bool} :
    ∀ (l : List Char) (c : Char) (x : List Char), l.all p = true → p c = false →
      (l ++ c :: x).takeWhile p = l := by
  intro l
  induction l with
  | nil =>
      intro c x _ hc
      simp [List.takeWhile_cons, hc]
  | cons a t ih =>
      intro c x hall hc
      simp only [List.all_cons, Bool.and_eq_true] at hall
      simp only [List.cons_append, List.takeWhile_cons, hall.1, if_true]
      rw [ih c x hall.2 hc]

theorem email_wall {w : List Char} (hw : w.all localClass = true) (hne : w ≠ [])
    (p : Option Char) (rest : List Char) :
    emailMatch p (w ++ ']' :: rest) = none := by
  have hie : w.isEmpty = false := by
    cases w with
    | nil => exact absurd rfl hne
    | cons a t => rfl
  unfold emailMatch
  rw [takeWhile_append_all w ']' rest hw (by decide)]
  rw [if_neg (by simp [hie])]
  by_cases hb : boundary p w.head? = false
  · rw [if_pos hb]
  · rw [if_neg hb, List.drop_left]
    show (if (']' : Char) = '@' then _ else none) = none
    rw [if_neg (by decide)]

theorem suffixSafe_email_aux : ∀ (mid : List Char), mid.all localClass = true →
    ∀ (p : Option Char) (rest : List Char),
      SuffixSafe emailMatch p (mid ++ [']']) rest := by
  intro mid
  induction mid with
  | nil =>
      intro _ p rest
      exact ⟨emailMatch_head_fail (by decide) p _, trivial⟩
  | cons c w ih =>
      intro hall p rest
      simp only [List.all_cons, Bool.and_eq_true] at hall
      refine ⟨?_, ih hall.2 (some c) rest⟩
      have hwall := email_wall (w := c :: w)
        (by simp [List.all_cons, hall.1, hall.2]) (by simp) p rest
      simpa [List.append_assoc] using hwall

theorem tokSafe_email : TokSafe emailMatch ("[EMAIL_REDACTED]".data) := by
  intro prev rest
  have hdec : "[EMAIL_REDACTED]".data = '[' :: ("EMAIL_REDACTED".data ++ [']']) := by
    decide
  rw [hdec]
  exact ⟨emailMatch_head_fail (by decide) prev _,
    suffixSafe_email_aux ("EMAIL_REDACTED".data) (by decide) (some '[') rest⟩

theorem window_noMatch_self {k : Nat} {shape : List Char → Bool}
    (hshape : ∀ w, shape w = true → w.all charOK = true) (hk : 1 ≤ k)
    (repl : String) (hall : ∀ c ∈ repl.data, charOK c = false)
    (hrepl : repl.data.head? = some '[') (s : List Char) :
    NoMatch (windowMatch k shape) none (reSub (windowMatch k shape) repl s) :=
  noMatch_chunks_self (windowMatch_nil hk)
    (fun p x => windowMatch_head_fail hshape hk (by decide) p x)
    (fun _ _ _ _ h hb => windowMatch_swap hk h hb)
    (windowMatch_segTransfer hshape hk)
    (fun _ _ _ h => windowMatch_lead hk h)
    (fun _ _ _ h => windowMatch_trail h)
    (tokSafe_window hshape hk repl.data hall)
    hrepl
    (reSub_chunks (windowMatch_len hk) s)

theorem window_noMatch_pres {k : Nat} {shape : List Char → Bool}
    (hshape : ∀ w, shape w = true → w.all charOK = true) (hk : 1 ≤ k)
    {tmQ : Option Char → List Char → Option Nat}
    (HQlen : ∀ p t n, tmQ p t = some n → 1 ≤ n ∧ n ≤ t.length)
    (HQlead : ∀ p t n, tmQ p t = some n → boundary p t.head? = true)
    (HQtrail : ∀ p t n, tmQ p t = some n →
      boundary ((t.take n).getLast?) ((t.drop n).head?) = true)
    (replQ : String) (hall : ∀ c ∈ replQ.data, charOK c = false)
    (hreplQ : replQ.data.head? = some '[') (s : List Char)
    (hnm : NoMatch (windowMatch k shape) none s) :
    NoMatch (windowMatch k shape) none (reSub tmQ replQ s) :=
  noMatch_chunks_pres (windowMatch_nil hk)
    (fun p x => windowMatch_head_fail hshape hk (by decide) p x)
    (fun _ _ _ _ h hb => windowMatch_swap hk h hb)
    (windowMatch_segTransfer hshape hk)
    HQlead HQtrail
    (tokSafe_window hshape hk replQ.data hall)
    hreplQ
    (reSub_chunks HQlen s)
    hnm

theorem email_noMatch_self (s : List Char) :
    NoMatch emailMatch none (reSub emailMatch "[EMAIL_REDACTED]" s) :=
  noMatch_chunks_self emailMatch_nil
    (fun p x => emailMatch_head_fail (by decide) p x)
    (fun _ _ _ _ h hb => emailMatch_swap h hb)
    emailMatch_segTransfer
    (fun _ _ _ h => emailMatch_lead h)
    (fun _ _ _ h => emailMatch_trail h)
    tokSafe_email
    (by decide)
    (reSub_chunks emailMatch_len s)

theorem redact_noMatch (s : List Char) :
    NoMatch ssnMatch none (redactPass s) ∧
    NoMatch (digitRunMatch 16) none (redactPass s) ∧
    NoMatch (digitRunMatch 10) none (redactPass s) ∧
    NoMatch emailMatch none (redactPass s) := by
  have hk11 : (1 : Nat) ≤ 11 := by decide
  have hk16 : (1 : Nat) ≤ 16 := by decide
  have hk10 : (1 : Nat) ≤ 10 := by decide
  have hallS : ∀ c ∈ ("[SSN_REDACTED]".data), charOK c = false := by decide
  have hallC : ∀ c ∈ ("[CREDIT_CARD_REDACTED]".data), charOK c = false := by decide
  have hallP : ∀ c ∈ ("[PHONE_REDACTED]".data), charOK c = false := by decide
  have hallE : ∀ c ∈ ("[EMAIL_REDACTED]".data), charOK c = false := by decide
  have hhS : ("[SSN_REDACTED]".data).head? = some '[' := by decide
  have hhC : ("[CREDIT_CARD_REDACTED]".data).head? = some '[' := by decide
  have hhP : ("[PHONE_REDACTED]".data).head? = some '[' := by decide
  have hhE : ("[EMAIL_REDACTED]".data).head? = some '[' := by decide
  -- the SSN matcher along the four stages
  have hS1 : NoMatch ssnMatch none (reSub ssnMatch "[SSN_REDACTED]" s) :=
    window_noMatch_self ssnShape_all hk11 _ hallS hhS s
  have hS2 : NoMatch ssnMatch none (reSub (digitRunMatch 16) "[CREDIT_CARD_REDACTED]"
      (reSub ssnMatch "[SSN_REDACTED]" s)) :=
    window_noMatch_pres ssnShape_all hk11 (windowMatch_len hk16)
      (fun _ _ _ h => windowMatch_lead hk16 h) (fun _ _ _ h => windowMatch_trail h)
      _ hallC hhC _ hS1
  have hS3 : NoMatch ssnMatch none (reSub (digitRunMatch 10) "[PHONE_REDACTED]"
      (reSub (digitRunMatch 16) "[CREDIT_CARD_REDACTED]"
        (reSub ssnMatch "[SSN_REDACTED]" s))) :=
    window_noMatch_pres ssnShape_all hk11 (windowMatch_len hk10)
      (fun _ _ _ h => windowMatch_lead hk10 h) (fun _ _ _ h => windowMatch_trail h)
      _ hallP hhP _ hS2
  have hS4 : NoMatch ssnMatch none (redactPass s) :=
    window_noMatch_pres ssnShape_all hk11 emailMatch_len
      (fun _ _ _ h => emailMatch_lead h) (fun _ _ _ h => emailMatch_trail h)
      _ hallE hhE _ hS3
  -- the credit-card matcher along the last three stages
  have hC2 : NoMatch (digitRunMatch 16) none
      (reSub (digitRunMatch 16) "[CREDIT_CARD_REDACTED]"
        (reSub ssnMatch "[SSN_REDACTED]" s)) :=
    window_noMatch_self digitAll_charOK hk16 _ hallC hhC _
  have hC3 : NoMatch (digitRunMatch 16) none
      (reSub (digitRunMatch 10) "[PHONE_REDACTED]"
        (reSub (digitRunMatch 16) "[CREDIT_CARD_REDACTED]"
          (reSub ssnMatch "[SSN_REDACTED]" s))) :=
    window_noMatch_pres digitAll_charOK hk16 (windowMatch_len hk10)
      (fun _ _ _ h => windowMatch_lead hk10 h) (fun _ _ _ h => windowMatch_trail h)
      _ hallP hhP _ hC2
  have hC4 : NoMatch (digitRunMatch 16) none (redactPass s) :=
    window_noMatch_pres digitAll_charOK hk16 emailMatch_len
      (fun _ _ _ h => emailMatch_lead h) (fun _ _ _ h => emailMatch_trail h)
      _ hallE hhE _ hC3
  -- the phone matcher along the last two stages
  have hP3 : NoMatch (digitRunMatch 10) none
      (reSub (digitRunMatch 10) "[PHONE_REDACTED]"
        (reSub (digitRunMatch 16) "[CREDIT_CARD_REDACTED]"
          (reSub ssnMatch "[SSN_REDACTED]" s))) :=
    window_noMatch_self digitAll_charOK hk10 _ hallP hhP _
  have hP4 : NoMatch (digitRunMatch 10) none (redactPass s) :=
    window_noMatch_pres digitAll_charOK hk10 emailMatch_len
      (fun _ _ _ h => emailMatch_lead h) (fun _ _ _ h => emailMatch_trail h)
      _ hallE hhE _ hP3
  -- the email matcher on the final stage
  have hE4 : NoMatch emailMatch none (redactPass s) :=
    email_noMatch_self (reSub (digitRunMatch 10) "[PHONE_REDACTED]"
      (reSub (digitRunMatch 16) "[CREDIT_CARD_REDACTED]"
        (reSub ssnMatch "[SSN_REDACTED]" s)))
  exact ⟨hS4, hC4, hP4, hE4⟩

/-- C8: the redaction pass of the output sanitizer is idempotent — applying
the ordered list of redaction substitutions (SSN, credit card, phone, e-mail)
to a text that is already the result of applying them produces the same text,
with no further changes. -/
theorem redactPass_idempotent (s : List Char) :
    redactPass (redactPass s) = redactPass s := by
  obtain ⟨h1, h2, h3, h4⟩ := redact_noMatch s
  show reSub emailMatch "[EMAIL_REDACTED]"
      (reSub (digitRunMatch 10) "[PHONE_REDACTED]"
        (reSub (digitRunMatch 16) "[CREDIT_CARD_REDACTED]"
          (reSub ssnMatch "[SSN_REDACTED]" (redactPass s)))) = redactPass s
  rw [reSub_eq_self h1, reSub_eq_self h2, reSub_eq_self h3, reSub_eq_self h4]

end OutputChecker
